import Mathlib

/-!
Verification development for the `imgdiff` directory/image binary diff tool
(`imgdiff.py`).  The program compares two directory trees: it scans both with
`get_contents` (built on `os.walk`), then reconciles the two listings in
`main`'s comparison loop, classifying every file as match / mismatch /
missing and every directory present on only one side as a missing directory,
accumulating counters and an overall return status, and finally (with `-s`)
printing percentage statistics.

The shallow embedding below models:
  - `sha256sum` (lines 20-35): block-wise hashing with a single
    permission-retry.  A file is a `FileObj` carrying its content digest
    (`hash`) and its permission bits (`mode`); the kernel's access check is
    an explicit parameter `access : Nat -> Bool` deciding, from the mode
    bits, whether an open-for-read succeeds.  `os.chmod(f, mode | S_IRUSR)`
    is `addUserRead`.  The only modelled error is `PermissionError`
    (`Except Unit`).
  - `get_contents` (lines 37-51): `os.walk` over a tree of `FSNode`s.
    A symbolic link carries the target string and whether the target
    resolves to a directory (`os.path.isdir` on the link); `os.walk` puts
    such links into `dirs` (not recursed into, `followlinks=False`) and all
    other non-directories into `files`.
  - the comparison loop of `main` (lines 116-184): `reconcile` consumes two
    listings and produces the ordered sequence of report events; counters
    (`statsOf`) and the return status (`retOf`) are folds over that
    sequence, mirroring the inline `stats[..] += 1` / `ret = 1` updates.
  - the statistics block of `main` (lines 187-198): `statsReport`, where
    Python's `x / file_total` is rational division raising
    `ZeroDivisionError` (`Except.error`) when the denominator is zero.
-/

namespace Imgdiff

/-- A regular file: its content fingerprint and its permission mode bits. -/
structure FileObj where
  hash : Nat
  mode : Nat
deriving DecidableEq, Repr

/-- `stat.S_IRUSR`: owner-read permission bit (0o400). -/
def S_IRUSR : Nat := 256

/-- `os.chmod(filename, os.stat(filename).st_mode | stat.S_IRUSR)` from
line 31: add the owner-read bit to the file's mode. -/
def addUserRead (f : FileObj) : FileObj :=
  { f with mode := f.mode ||| S_IRUSR }

/-- `sha256sum(filename, block_size, retry)` (lines 20-35).  `access`
decides whether opening the file for reading succeeds given its mode bits.
On a `PermissionError` with `retry=True` the code chmods the file u+r and
recurses once with `retry=False`; a second failure re-raises.  Returns the
digest result together with the file's final state (the chmod is a real
side effect on the tree). -/
def sha256sum (access : Nat → Bool) (f : FileObj) (retry : Bool) :
    Except Unit Nat × FileObj :=
  if access f.mode then
    (Except.ok f.hash, f)
  else
    match retry with
    | true => sha256sum access (addUserRead f) false
    | false => (Except.error (), f)
termination_by retry.toNat
decreasing_by decide

/-- A leaf entry of a listing: what a recorded path dereferences to.
`os.walk`'s `files` list holds regular files and symbolic links whose
target is not a directory, so these are the two possible shapes. -/
inductive FObj where
  | reg (f : FileObj)
  | symlink (target : String)
deriving DecidableEq, Repr

/-- `os.path.islink` on a listed entry. -/
def isLink : FObj → Bool
  | .reg _ => false
  | .symlink _ => true

/-- Outcome of the per-file comparison of `main` (lines 128-141): the
`match` flag ends up `True` or `False`, or a `PermissionError` was caught
("cannot compare"). -/
inductive CompareOutcome where
  | matched
  | missmatched
  | cannotCompare
deriving DecidableEq, Repr

/-- The per-file comparison, lines 129-141 of `main`:
if either entry is a symlink, both must be symlinks with identical
`os.readlink` targets (no hashing in that branch); otherwise the two
SHA-256 digests are compared, each computed by `sha256sum` with its
one-retry behaviour, and a `PermissionError` from hashing is caught as
`cannotCompare`.  `sha256sum(image1 file)` is evaluated before
`sha256sum(image2 file)`. -/
def compareFiles (access : Nat → Bool) : FObj → FObj → CompareOutcome
  | .symlink t₁, .symlink t₂ => if t₁ ≠ t₂ then .missmatched else .matched
  | .symlink _, .reg _ => .missmatched
  | .reg _, .symlink _ => .missmatched
  | .reg f₁, .reg f₂ =>
    match (sha256sum access f₁ true).1 with
    | .error _ => .cannotCompare
    | .ok h₁ =>
      match (sha256sum access f₂ true).1 with
      | .error _ => .cannotCompare
      | .ok h₂ => if h₁ ≠ h₂ then .missmatched else .matched

/-- One report event of the comparison loop, in emission order:
the "File Missmatch" line (147), the "Permission Error: cannot compare"
line (140), the two "Missing File" lines (161, 167), and the two
"Missing Directory (with N files)" lines (173, 180).  A match produces no
line but is an event because it bumps the `match` counter.  The
directory-missing events carry the file names of the absent directory;
the printed count is their length. -/
inductive Event where
  | fileMatch (dir file : String)
  | fileMissmatch (dir file : String)
  | cannotCompare (dir file : String)
  | missingFile1 (dir file : String)
  | missingFile2 (dir file : String)
  | dirMissing1 (dir : String) (fileNames : List String)
  | dirMissing2 (dir : String) (fileNames : List String)
deriving DecidableEq, Repr

/-- Event produced for a file present on both sides, from the comparison
outcome (lines 142-150: note that a caught `PermissionError` leaves
`match = True`, so the pair still lands in the `if match:` branch). -/
def classifyEv (dir file : String) : CompareOutcome → Event
  | .matched => .fileMatch dir file
  | .missmatched => .fileMissmatch dir file
  | .cannotCompare => .cannotCompare dir file

/-- The directory named by an event. -/
def eventDir : Event → String
  | .fileMatch d _ => d
  | .fileMissmatch d _ => d
  | .cannotCompare d _ => d
  | .missingFile1 d _ => d
  | .missingFile2 d _ => d
  | .dirMissing1 d _ => d
  | .dirMissing2 d _ => d

/-- Events arising from classifying a file present on both sides. -/
def isClassifyEv : Event → Bool
  | .fileMatch _ _ => true
  | .fileMissmatch _ _ => true
  | .cannotCompare _ _ => true
  | _ => false

/-- The `stats` counter dictionary of `main` (lines 117-122).  The Python
keys are `match`, `missmatch`, `missing1`, `missing2`, `dir_missing1`,
`dir_missing2`; `match` is a Lean keyword, hence `match'`. -/
structure Stats where
  match' : Nat
  missmatch : Nat
  missing1 : Nat
  missing2 : Nat
  dir_missing1 : Nat
  dir_missing2 : Nat
deriving DecidableEq, Repr

def zeroStats : Stats := ⟨0, 0, 0, 0, 0, 0⟩

/-- The counter increments attached to each event (lines 144-145, 148-149,
162-163, 168-169, 174-176, 181-183).  A caught `PermissionError` leaves
`match = True`, so a `cannotCompare` event bumps the `match` counter. -/
def bump (s : Stats) : Event → Stats
  | .fileMatch _ _ => { s with match' := s.match' + 1 }
  | .cannotCompare _ _ => { s with match' := s.match' + 1 }
  | .fileMissmatch _ _ => { s with missmatch := s.missmatch + 1 }
  | .missingFile1 _ _ => { s with missing1 := s.missing1 + 1 }
  | .missingFile2 _ _ => { s with missing2 := s.missing2 + 1 }
  | .dirMissing1 _ fns =>
    { s with dir_missing1 := s.dir_missing1 + 1, missing1 := s.missing1 + fns.length }
  | .dirMissing2 _ fns =>
    { s with dir_missing2 := s.dir_missing2 + 1, missing2 := s.missing2 + fns.length }

/-- The counters accumulated over a run, starting from the zeroed dict. -/
def statsOf (es : List Event) : Stats := es.foldl bump zeroStats

def addStats (a b : Stats) : Stats :=
  ⟨a.match' + b.match', a.missmatch + b.missmatch, a.missing1 + b.missing1,
   a.missing2 + b.missing2, a.dir_missing1 + b.dir_missing1,
   a.dir_missing2 + b.dir_missing2⟩

/-- Which events execute `ret = 1` (lines 150, 164, 170, 177, 184): every
mismatch and missing event does; a match does not, and neither does a
caught `PermissionError` (the except branch at 139-140 sets no status). -/
def eventSetsRet : Event → Bool
  | .fileMatch _ _ => false
  | .cannotCompare _ _ => false
  | _ => true

/-- The final return value of the comparison: `ret` starts at 0 (line 116)
and is set to 1 by any difference. -/
def retOf (es : List Event) : Nat := if es.any eventSetsRet then 1 else 0

/-- The files of one directory in a listing: file name to entry, in
dict insertion order. -/
abbrev Files := List (String × FObj)

/-- A tree listing as built by `get_contents`: relative directory path to
its files, in dict insertion order. -/
abbrev Listing := List (String × Files)

/-- Python `d[k]` / `k in d` on an insertion-ordered dict with unique
keys, modelled on an association list. -/
def lookupAL (k : String) : List (String × α) → Option α
  | [] => none
  | p :: rest => if p.1 = k then some p.2 else lookupAL k rest

/-- Python `d.pop(k, None)`: remove the entry for `k` (the first one, the
only one for a dict) keeping the order of the rest. -/
def eraseAL (k : String) : List (String × α) → List (String × α)
  | [] => []
  | p :: rest => if p.1 = k then rest else p :: eraseAL k rest

/-- The keys of a dict, in order. -/
def keysAL (l : List (String × α)) : List String := l.map Prod.fst

/-- Lines 126-170 of `main` for one directory present in both trees:
iterate the left dir's files; a file also on the right is classified and
popped from the right dir's dict (line 159); a file absent from the right
emits "Missing File ... from image1" (161); afterwards everything left in
the right dir's dict emits "Missing File ... from image2" (166-170). -/
def processDirFiles (access : Nat → Bool) (dir : String) :
    Files → Files → List Event
  | [], rfs => rfs.map fun q => Event.missingFile2 dir q.1
  | (f, o) :: rest, rfs =>
    match lookupAL f rfs with
    | some o₂ =>
      classifyEv dir f (compareFiles access o o₂) ::
        processDirFiles access dir rest (eraseAL f rfs)
    | none => Event.missingFile1 dir f :: processDirFiles access dir rest rfs

/-- The first pass of the loop (lines 123-177): iterate the left listing's
directories; a shared directory is processed file-by-file and then popped
from the right listing (line 171); a directory absent from the right emits
one "Missing Directory" line (172-177).  Returns the events together with
the mutated right listing. -/
def pass1 (access : Nat → Bool) : Listing → Listing → List Event × Listing
  | [], r => ([], r)
  | (d, lfs) :: rest, r =>
    match lookupAL d r with
    | some rfs =>
      let res := pass1 access rest (eraseAL d r)
      (processDirFiles access d lfs rfs ++ res.1, res.2)
    | none =>
      let res := pass1 access rest r
      (Event.dirMissing1 d (keysAL lfs) :: res.1, res.2)

/-- The second pass (lines 179-184): every directory still left in the
right listing emits one "Missing Directory" line. -/
def pass2 (r : Listing) : List Event :=
  r.map fun p => Event.dirMissing2 p.1 (keysAL p.2)

/-- The whole comparison loop of `main` (lines 116-184) as the ordered
sequence of report events. -/
def reconcile (access : Nat → Bool) (l r : Listing) : List Event :=
  (pass1 access l r).1 ++ pass2 (pass1 access l r).2

/-- The directories the loop visits, each in exactly one iteration: the
left listing's keys (first pass) followed by what remains of the right
listing (second pass). -/
def visitedDirs (access : Nat → Bool) (l r : Listing) : List String :=
  keysAL l ++ keysAL (pass1 access l r).2

/-- Whether a listing holds file `f` in directory `d`. -/
def hasFileB (l : Listing) (d f : String) : Bool :=
  match lookupAL d l with
  | some fs => (lookupAL f fs).isSome
  | none => false

/-- Whether an event classifies or counts the file `f` of directory `d`:
a per-file event naming it, or a missing-directory event for `d` whose
carried file list contains `f`. -/
def touches (d f : String) : Event → Bool
  | .fileMatch d' f' => d' = d ∧ f' = f
  | .fileMissmatch d' f' => d' = d ∧ f' = f
  | .cannotCompare d' f' => d' = d ∧ f' = f
  | .missingFile1 d' f' => d' = d ∧ f' = f
  | .missingFile2 d' f' => d' = d ∧ f' = f
  | .dirMissing1 d' fns => d' = d ∧ f ∈ fns
  | .dirMissing2 d' fns => d' = d ∧ f ∈ fns

/-- Whether opening a listed entry for reading succeeds at once (symlinks
are compared by `os.readlink`, which needs no read permission on the
target). -/
def readableObj (access : Nat → Bool) : FObj → Bool
  | .reg f => access f.mode
  | .symlink _ => true

/-- Every file recorded in the listing is readable on the first attempt. -/
def allReadable (access : Nat → Bool) (l : Listing) : Prop :=
  ∀ p ∈ l, ∀ q ∈ p.2, readableObj access q.2 = true

/-- Python `a / b` on counters (ints): float division, raising
`ZeroDivisionError` when `b = 0`. -/
def pyDiv (a b : Nat) : Except Unit ℚ :=
  if b = 0 then Except.error () else Except.ok ((a : ℚ) / (b : ℚ))

/-- The statistics block of `main` (lines 187-198): `file_total` is
`match + missmatch + missing1 + missing2`, and the three percentage lines
divide by it.  Returns the match, miss and missing ratios, or the
`ZeroDivisionError` Python raises at line 192 when no file was compared. -/
def statsReport (s : Stats) : Except Unit (ℚ × ℚ × ℚ) := do
  let file_total := s.match' + s.missmatch + s.missing1 + s.missing2
  let missing_total := s.missing1 + s.missing2
  let p₁ ← pyDiv s.match' file_total
  let p₂ ← pyDiv s.missmatch file_total
  let p₃ ← pyDiv missing_total file_total
  return (p₁, p₂, p₃)

/-- A node of an input tree.  A symbolic link records its target string
and whether the target resolves to a directory (`os.path.isdir` follows
links, which is how `os.walk` splits entries into `dirs` and `files`);
links are never followed, so they carry no subtree. -/
inductive FSNode where
  | reg (f : FileObj)
  | symlink (target : String) (isDir : Bool)
  | dir (children : List (String × FSNode))

/-- Insert into a key-sorted association list (for `list.sort()` on the
name lists `os.walk` yields). -/
def insertByName (p : String × α) : List (String × α) → List (String × α)
  | [] => [p]
  | q :: rest => if p.1 ≤ q.1 then p :: q :: rest else q :: insertByName p rest

/-- `list.sort()`: lexicographic sort by name. -/
def sortByName : List (String × α) → List (String × α)
  | [] => []
  | p :: rest => insertByName p (sortByName rest)

/-- The `files` list of an `os.walk` triple for a directory with the given
children: regular files and symlinks whose target is not a directory
(`DirEntry.is_dir()` follows links, so a link to a directory goes to
`dirs` instead), paired with what the recorded path dereferences to. -/
def filesOfChildren (cs : List (String × FSNode)) : Files :=
  cs.filterMap fun p =>
    match p.2 with
    | .reg f => some (p.1, FObj.reg f)
    | .symlink t false => some (p.1, FObj.symlink t)
    | .symlink _ true => none
    | .dir _ => none

/-- The subdirectories `os.walk` recurses into: real directories only
(`followlinks=False` keeps symlinked directories in `dirs` but never
descends into them, so they contribute nothing to the walk's output). -/
def dirsOfChildren (cs : List (String × FSNode)) :
    List (String × List (String × FSNode)) :=
  cs.filterMap fun p =>
    match p.2 with
    | .dir cc => some (p.1, cc)
    | _ => none

/-- `os.path.join` of a relative directory path and a name, as
`os.path.relpath` produces it: the tree root is `"."`. -/
def joinRel (parent name : String) : String :=
  if parent = "." then name else parent ++ "/" ++ name

theorem mem_insertByName {p x : String × α} {l : List (String × α)} :
    x ∈ insertByName p l ↔ x = p ∨ x ∈ l := by
  induction l with
  | nil => simp [insertByName]
  | cons q rest ih =>
    simp only [insertByName]
    split
    · simp
    · simp [ih]; tauto

theorem mem_sortByName {x : String × α} {l : List (String × α)} :
    x ∈ sortByName l ↔ x ∈ l := by
  induction l with
  | nil => simp [sortByName]
  | cons q rest ih => simp [sortByName, mem_insertByName, ih]

theorem sizeOf_mem_dirsOfChildren {cs : List (String × FSNode)}
    {n : String} {cc : List (String × FSNode)}
    (h : (n, cc) ∈ dirsOfChildren cs) : sizeOf cc < sizeOf cs := by
  induction cs with
  | nil => simp [dirsOfChildren] at h
  | cons q rest ih =>
    simp only [dirsOfChildren, List.filterMap_cons] at h
    rcases q with ⟨m, node⟩
    cases node with
    | dir cc' =>
      simp only at h
      rcases List.mem_cons.mp h with h | h
      · cases h
        simp only [List.cons.sizeOf_spec, Prod.mk.sizeOf_spec,
          FSNode.dir.sizeOf_spec]
        omega
      · have := ih h
        simp only [List.cons.sizeOf_spec]
        omega
    | reg f =>
      simp only at h
      have := ih h
      simp only [List.cons.sizeOf_spec]
      omega
    | symlink t b =>
      simp only at h
      have := ih h
      simp only [List.cons.sizeOf_spec]
      omega

/-- The skeleton of `os.walk(top_dir)` (top-down, `followlinks=False`):
every visited directory, as a pair of its relative path and its children,
in traversal order; with `sorted`, `dirs.sort()` makes the recursion visit
subdirectories in lexicographic order (line 44). -/
def walkDirs (sorted : Bool) (relpath : String)
    (cs : List (String × FSNode)) : List (String × List (String × FSNode)) :=
  (relpath, cs) ::
    ((if sorted then sortByName (dirsOfChildren cs) else dirsOfChildren cs).attach.flatMap
      fun p => walkDirs sorted (joinRel relpath p.1.1) p.1.2)
termination_by sizeOf cs
decreasing_by
  rcases p with ⟨⟨n, cc⟩, hq⟩
  have h : (n, cc) ∈ dirsOfChildren cs := by
    split at hq
    · exact mem_sortByName.mp hq
    · exact hq
  exact sizeOf_mem_dirsOfChildren h

/-- The `files` list of one visited directory, in inspection order:
`files.sort()` is applied when sorted traversal is requested (line 45). -/
def filesOfDir (sorted : Bool) (cs : List (String × FSNode)) : Files :=
  if sorted then sortByName (filesOfChildren cs) else filesOfChildren cs

/-- `get_contents(top_dir, sorted)` (lines 37-51): walk the tree; for each
visited directory with at least one entry in its `files` list, record its
relative path mapped to those files.  A directory whose `files` list is
empty contributes no key (the dict entry is only created when a file is
seen, line 48). -/
def get_contents (sorted : Bool) (cs : List (String × FSNode)) : Listing :=
  (walkDirs sorted "." cs).filterMap fun p =>
    if (filesOfDir sorted p.2).isEmpty then none
    else some (p.1, filesOfDir sorted p.2)

/-! ### Basic lemmas -/

/-- Closed form of `sha256sum`: the first read either succeeds, or the
mode is chmod-ed u+r and the read is retried exactly once (`retry=True`),
or the error propagates (`retry=False`). -/
theorem sha256sum_eq (access : Nat → Bool) (f : FileObj) (retry : Bool) :
    sha256sum access f retry =
      if access f.mode then (Except.ok f.hash, f)
      else if retry then
        (if access (addUserRead f).mode then (Except.ok f.hash, addUserRead f)
         else (Except.error (), addUserRead f))
      else (Except.error (), f) := by
  cases retry with
  | true =>
    rw [sha256sum]
    by_cases h : access f.mode
    · simp [h]
    · simp only [h]
      rw [sha256sum]
      by_cases h' : access (addUserRead f).mode <;> simp [h, h', addUserRead]
  | false =>
    rw [sha256sum]
    by_cases h : access f.mode <;> simp [h]

theorem lookupAL_eq_none_iff {l : List (String × α)} {k : String} :
    lookupAL k l = none ↔ k ∉ keysAL l := by
  induction l with
  | nil => simp [lookupAL, keysAL]
  | cons p rest ih =>
    simp only [lookupAL, keysAL, List.map_cons, List.mem_cons]
    split
    · simp_all [keysAL]
    · simp_all [keysAL]
      tauto

theorem lookupAL_isSome_iff {l : List (String × α)} {k : String} :
    (lookupAL k l).isSome = true ↔ k ∈ keysAL l := by
  rcases h : lookupAL k l with _ | v
  · simp [lookupAL_eq_none_iff.mp h]
  · simp only [Option.isSome_some, true_iff]
    by_contra hk
    rw [lookupAL_eq_none_iff.mpr hk] at h
    cases h

theorem lookupAL_mem {l : List (String × α)} {k : String} {v : α}
    (h : lookupAL k l = some v) : (k, v) ∈ l := by
  induction l with
  | nil => cases h
  | cons p rest ih =>
    simp only [lookupAL] at h
    split at h
    · rename_i heq
      cases h
      rw [← heq]
      exact List.mem_cons_self _ _
    · right
      exact ih h

theorem lookupAL_of_mem_nodup {l : List (String × α)} {k : String} {v : α}
    (hnd : (keysAL l).Nodup) (h : (k, v) ∈ l) : lookupAL k l = some v := by
  induction l with
  | nil => cases h
  | cons p rest ih =>
    simp only [keysAL, List.map_cons, List.nodup_cons] at hnd
    rcases List.mem_cons.mp h with h | h
    · cases h
      simp [lookupAL]
    · have hk : ¬ p.1 = k := by
        rintro rfl
        exact hnd.1 (List.mem_map.mpr ⟨_, h, rfl⟩)
      simp only [lookupAL, if_neg hk]
      exact ih hnd.2 h

theorem keysAL_eraseAL_sub {l : List (String × α)} {k a : String}
    (h : a ∈ keysAL (eraseAL k l)) : a ∈ keysAL l := by
  induction l with
  | nil => simp [eraseAL, keysAL] at h
  | cons p rest ih =>
    simp only [eraseAL] at h
    split at h
    · simp [keysAL, List.map_cons]
      right
      simpa [keysAL] using h
    · simp only [keysAL, List.map_cons, List.mem_cons] at h ⊢
      rcases h with h | h
      · exact Or.inl h
      · exact Or.inr (ih h)

theorem lookupAL_eraseAL_ne {l : List (String × α)} {k a : String}
    (h : a ≠ k) : lookupAL a (eraseAL k l) = lookupAL a l := by
  induction l with
  | nil => simp [eraseAL]
  | cons p rest ih =>
    simp only [eraseAL]
    split
    · rename_i hp
      have hpa : ¬ p.1 = a := by rw [hp]; exact fun hh => h hh.symm
      simp only [lookupAL, if_neg hpa]
    · simp only [lookupAL]
      split
      · rfl
      · exact ih

theorem keysAL_eraseAL_nodup {l : List (String × α)} {k : String}
    (hnd : (keysAL l).Nodup) : (keysAL (eraseAL k l)).Nodup := by
  induction l with
  | nil => simpa [eraseAL] using hnd
  | cons p rest ih =>
    simp only [keysAL, List.map_cons, List.nodup_cons] at hnd
    simp only [eraseAL]
    split
    · exact hnd.2
    · simp only [keysAL, List.map_cons, List.nodup_cons]
      exact ⟨fun hm => hnd.1 (keysAL_eraseAL_sub hm), ih hnd.2⟩

theorem not_mem_keysAL_eraseAL {l : List (String × α)} {k : String}
    (hnd : (keysAL l).Nodup) : k ∉ keysAL (eraseAL k l) := by
  induction l with
  | nil => simp [eraseAL, keysAL]
  | cons p rest ih =>
    simp only [keysAL, List.map_cons, List.nodup_cons] at hnd
    simp only [eraseAL]
    split
    · rename_i hp
      rw [← hp]
      exact hnd.1
    · simp only [keysAL, List.map_cons, List.mem_cons]
      rintro (h | h)
      · rename_i hp
        exact hp h.symm
      · exact ih hnd.2 h

theorem eraseAL_cons_self {rest : List (String × α)} {k : String} {v : α} :
    eraseAL k ((k, v) :: rest) = rest := by
  simp [eraseAL]

theorem lookupAL_middle_ne {A B : List (String × α)} {f x : String} {o : α}
    (h : f ≠ x) : lookupAL f (A ++ (x, o) :: B) = lookupAL f (A ++ B) := by
  induction A with
  | nil =>
    have hx : ¬ x = f := fun hh => h hh.symm
    simp [lookupAL, hx]
  | cons p rest ih =>
    simp only [List.cons_append, lookupAL]
    split
    · rfl
    · exact ih

theorem eraseAL_middle_ne {A B : List (String × α)} {f x : String} {o : α}
    (h : f ≠ x) : ∃ A' B', eraseAL f (A ++ (x, o) :: B) = A' ++ (x, o) :: B' ∧
      eraseAL f (A ++ B) = A' ++ B' := by
  induction A with
  | nil =>
    refine ⟨[], eraseAL f B, ?_, ?_⟩
    · have hx : ¬ x = f := fun hh => h hh.symm
      simp [eraseAL, hx]
    · simp
  | cons p rest ih =>
    by_cases hp : p.1 = f
    · exact ⟨rest, B, by simp [eraseAL, hp], by simp [eraseAL, hp]⟩
    · rcases ih with ⟨A', B', h₁, h₂⟩
      exact ⟨p :: A', B', by simp [eraseAL, hp, h₁], by simp [eraseAL, hp, h₂]⟩

theorem keysAL_append {a b : List (String × α)} :
    keysAL (a ++ b) = keysAL a ++ keysAL b := by
  simp [keysAL]

theorem nodup_keysAL_eq_of_mem {l : List (String × α)} {k : String} {a b : α}
    (hnd : (keysAL l).Nodup) (ha : (k, a) ∈ l) (hb : (k, b) ∈ l) : a = b := by
  have h₁ := lookupAL_of_mem_nodup hnd ha
  have h₂ := lookupAL_of_mem_nodup hnd hb
  rw [h₁] at h₂
  cases h₂
  rfl

/-! ### Stats lemmas -/

theorem bump_eq_addStats (s : Stats) (e : Event) :
    bump s e = addStats s (statsOf [e]) := by
  cases e <;> simp [bump, statsOf, addStats, zeroStats]

theorem foldl_bump_eq (s : Stats) (es : List Event) :
    es.foldl bump s = addStats s (statsOf es) := by
  induction es generalizing s with
  | nil => cases s; simp [statsOf, addStats, zeroStats]
  | cons e rest ih =>
    have h₁ : statsOf (e :: rest) = addStats (bump zeroStats e) (statsOf rest) := by
      show List.foldl bump (bump zeroStats e) rest = _
      exact ih _
    have h₂ : statsOf [e] = bump zeroStats e := rfl
    simp only [List.foldl_cons]
    rw [ih (bump s e), h₁, bump_eq_addStats s e, h₂]
    rcases s with ⟨s₁, s₂, s₃, s₄, s₅, s₆⟩
    rcases bump zeroStats e with ⟨e₁, e₂, e₃, e₄, e₅, e₆⟩
    rcases statsOf rest with ⟨r₁, r₂, r₃, r₄, r₅, r₆⟩
    simp [addStats]
    omega

theorem statsOf_append (a b : List Event) :
    statsOf (a ++ b) = addStats (statsOf a) (statsOf b) := by
  simp only [statsOf, List.foldl_append]
  exact foldl_bump_eq _ b

theorem statsOf_middle (A B : List Event) (e : Event) :
    statsOf (A ++ e :: B) = addStats (statsOf (A ++ B)) (statsOf [e]) := by
  have h : A ++ e :: B = (A ++ [e]) ++ B := by simp
  rw [h, statsOf_append, statsOf_append, statsOf_append]
  rcases statsOf A with ⟨a₁, a₂, a₃, a₄, a₅, a₆⟩
  rcases statsOf B with ⟨b₁, b₂, b₃, b₄, b₅, b₆⟩
  rcases statsOf [e] with ⟨c₁, c₂, c₃, c₄, c₅, c₆⟩
  simp [addStats]
  omega

theorem retOf_middle {e : Event} (A B : List Event)
    (h : eventSetsRet e = false) : retOf (A ++ e :: B) = retOf (A ++ B) := by
  simp [retOf, List.any_append, h]

/-! ### Reconciler lemmas -/

theorem reconcile_nil (access : Nat → Bool) (r : Listing) :
    reconcile access [] r = pass2 r := rfl

theorem reconcile_cons_some {access : Nat → Bool} {d : String} {lfs rfs : Files}
    {rest r : Listing} (h : lookupAL d r = some rfs) :
    reconcile access ((d, lfs) :: rest) r =
      processDirFiles access d lfs rfs ++ reconcile access rest (eraseAL d r) := by
  simp [reconcile, pass1, h]

theorem reconcile_cons_none {access : Nat → Bool} {d : String} {lfs : Files}
    {rest r : Listing} (h : lookupAL d r = none) :
    reconcile access ((d, lfs) :: rest) r =
      Event.dirMissing1 d (keysAL lfs) :: reconcile access rest r := by
  simp [reconcile, pass1, h]

/-- Every event a shared directory produces is a per-file event for that
directory. -/
theorem procFiles_shape {access : Nat → Bool} {d : String} {lfs rfs : Files} :
    ∀ e ∈ processDirFiles access d lfs rfs, ∃ f',
      e = Event.fileMatch d f' ∨ e = Event.fileMissmatch d f' ∨
      e = Event.cannotCompare d f' ∨ e = Event.missingFile1 d f' ∨
      e = Event.missingFile2 d f' := by
  induction lfs generalizing rfs with
  | nil =>
    intro e he
    simp only [processDirFiles, List.mem_map] at he
    rcases he with ⟨q, _, rfl⟩
    exact ⟨q.1, by simp⟩
  | cons p rest ih =>
    intro e he
    rcases p with ⟨f, o⟩
    simp only [processDirFiles] at he
    split at he
    · rcases List.mem_cons.mp he with rfl | he
      · cases compareFiles access o _ <;> simp [classifyEv]
      · exact ih e he
    · rcases List.mem_cons.mp he with rfl | he
      · exact ⟨f, by simp⟩
      · exact ih e he

/-- When the two directories hold the same file names in the same order,
the loop classifies them pairwise and the right directory is fully
consumed, so no missing-file event arises. -/
theorem zipProcFiles {access : Nat → Bool} {d : String} :
    ∀ {lfs rfs : Files}, keysAL lfs = keysAL rfs →
      processDirFiles access d lfs rfs =
        List.zipWith (fun p q => classifyEv d p.1 (compareFiles access p.2 q.2))
          lfs rfs := by
  intro lfs
  induction lfs with
  | nil =>
    intro rfs h
    have : rfs = [] := by
      cases rfs
      · rfl
      · simp [keysAL] at h
    subst this
    rfl
  | cons p rest ih =>
    intro rfs h
    cases rfs with
    | nil => simp [keysAL] at h
    | cons q rest₂ =>
      simp only [keysAL, List.map_cons, List.cons.injEq] at h
      rcases p with ⟨f, o⟩
      rcases q with ⟨f₂, o₂⟩
      simp only at h
      rcases h with ⟨rfl, hrest⟩
      have hl : lookupAL f ((f, o₂) :: rest₂) = some o₂ := by simp [lookupAL]
      simp only [processDirFiles, hl, List.zipWith_cons_cons, eraseAL_cons_self]
      rw [ih hrest]

/-- When the two listings hold the same directory paths in the same order,
the first pass pairs them up and consumes the whole right listing. -/
theorem zipPass1 {access : Nat → Bool} :
    ∀ {l r : Listing}, keysAL l = keysAL r →
      pass1 access l r =
        ((List.zipWith (fun p q => processDirFiles access p.1 p.2 q.2) l r).flatten,
          []) := by
  intro l
  induction l with
  | nil =>
    intro r h
    have : r = [] := by
      cases r
      · rfl
      · simp [keysAL] at h
    subst this
    rfl
  | cons p rest ih =>
    intro r h
    cases r with
    | nil => simp [keysAL] at h
    | cons q rest₂ =>
      simp only [keysAL, List.map_cons, List.cons.injEq] at h
      rcases p with ⟨d, lfs⟩
      rcases q with ⟨d₂, rfs⟩
      simp only at h
      rcases h with ⟨rfl, hrest⟩
      have hl : lookupAL d ((d, rfs) :: rest₂) = some rfs := by simp [lookupAL]
      simp only [pass1, hl, eraseAL_cons_self, ih hrest, List.zipWith_cons_cons,
        List.flatten_cons]

/-- Diagonal runs: comparing a listing against an equal listing classifies
every file pairwise against itself. -/
theorem reconcile_diag {access : Nat → Bool} (l : Listing) :
    reconcile access l l =
      (l.map fun p =>
        p.2.map fun q => classifyEv p.1 q.1 (compareFiles access q.2 q.2)).flatten := by
  have h := @zipPass1 access l l rfl
  simp only [reconcile, h, pass2, List.map_nil, List.append_nil]
  congr 1
  rw [List.zipWith_same]
  exact List.map_eq_map_iff.mpr fun p _ =>
    (zipProcFiles rfl).trans (by rw [List.zipWith_same])

/-- Inserting one extra file on the right side of a shared directory adds
exactly one "Missing File ... from image2" event to that directory's
events, leaving every other event unchanged. -/
theorem procFiles_insertRight {access : Nat → Bool} {d x : String} {o : FObj} :
    ∀ {lfs : Files}, x ∉ keysAL lfs → ∀ (A B : Files),
      ∃ E₁ E₂,
        processDirFiles access d lfs (A ++ (x, o) :: B) =
          E₁ ++ Event.missingFile2 d x :: E₂ ∧
        processDirFiles access d lfs (A ++ B) = E₁ ++ E₂ := by
  intro lfs
  induction lfs with
  | nil =>
    intro _ A B
    exact ⟨A.map fun q => Event.missingFile2 d q.1,
           B.map fun q => Event.missingFile2 d q.1,
           by simp [processDirFiles], by simp [processDirFiles]⟩
  | cons p rest ih =>
    rcases p with ⟨f, of⟩
    intro hx A B
    simp only [keysAL, List.map_cons, List.mem_cons] at hx
    push_neg at hx
    have hfx : f ≠ x := fun hh => hx.1 hh.symm
    have hrest : x ∉ keysAL rest := hx.2
    have hlk := lookupAL_middle_ne (A := A) (B := B) (o := o) hfx
    rcases hcase : lookupAL f (A ++ B) with _ | o₂
    · rcases ih hrest A B with ⟨E₁, E₂, h₁, h₂⟩
      exact ⟨Event.missingFile1 d f :: E₁, E₂,
        by simp only [processDirFiles, hlk, hcase, h₁, List.cons_append],
        by simp only [processDirFiles, hcase, h₂, List.cons_append]⟩
    · rcases eraseAL_middle_ne (A := A) (B := B) (o := o) hfx with ⟨A', B', hR, hb⟩
      rcases ih hrest A' B' with ⟨E₁, E₂, h₁, h₂⟩
      refine ⟨classifyEv d f (compareFiles access of o₂) :: E₁, E₂, ?_, ?_⟩
      · simp only [processDirFiles, hlk, hcase, hR, h₁, List.cons_append]
      · simp only [processDirFiles, hcase, hb, h₂, List.cons_append]

/-- Inserting one extra file on the left side of a shared directory adds
exactly one "Missing File ... from image1" event to that directory's
events, leaving every other event unchanged. -/
theorem procFiles_insertLeft {access : Nat → Bool} {d x : String} {o : FObj} :
    ∀ (ls₁ : Files) {ls₂ rfs : Files}, x ∉ keysAL rfs →
      ∃ E₁ E₂,
        processDirFiles access d (ls₁ ++ (x, o) :: ls₂) rfs =
          E₁ ++ Event.missingFile1 d x :: E₂ ∧
        processDirFiles access d (ls₁ ++ ls₂) rfs = E₁ ++ E₂ := by
  intro ls₁
  induction ls₁ with
  | nil =>
    intro ls₂ rfs hx
    have hlk : lookupAL x rfs = none := lookupAL_eq_none_iff.mpr hx
    exact ⟨[], processDirFiles access d ls₂ rfs,
      by simp only [List.nil_append, processDirFiles, hlk], by simp⟩
  | cons p rest ih =>
    rcases p with ⟨f, of⟩
    intro ls₂ rfs hx
    rcases hcase : lookupAL f rfs with _ | o₂
    · rcases @ih ls₂ rfs hx with ⟨E₁, E₂, h₁, h₂⟩
      exact ⟨Event.missingFile1 d f :: E₁, E₂,
        by simp only [List.cons_append, List.append_eq, processDirFiles, hcase, h₁],
        by simp only [List.cons_append, List.append_eq, processDirFiles, hcase, h₂]⟩
    · have hx' : x ∉ keysAL (eraseAL f rfs) := fun hm => hx (keysAL_eraseAL_sub hm)
      rcases @ih ls₂ (eraseAL f rfs) hx' with ⟨E₁, E₂, h₁, h₂⟩
      exact ⟨classifyEv d f (compareFiles access of o₂) :: E₁, E₂,
        by simp only [List.cons_append, List.append_eq, processDirFiles, hcase, h₁],
        by simp only [List.cons_append, List.append_eq, processDirFiles, hcase, h₂]⟩

/-- A directory present only on the right side is never touched by the
first pass: the events are unchanged and the extra entry survives into the
leftover listing. -/
theorem pass1_insertRight {access : Nat → Bool} {d : String} {fs : Files} :
    ∀ {l : Listing}, d ∉ keysAL l → ∀ (A B : Listing),
      ∃ A' B',
        pass1 access l (A ++ (d, fs) :: B) =
          ((pass1 access l (A ++ B)).1, A' ++ (d, fs) :: B') ∧
        (pass1 access l (A ++ B)).2 = A' ++ B' := by
  intro l
  induction l with
  | nil => intro _ A B; exact ⟨A, B, rfl, rfl⟩
  | cons p rest ih =>
    rcases p with ⟨d₀, lfs⟩
    intro hd A B
    simp only [keysAL, List.map_cons, List.mem_cons] at hd
    push_neg at hd
    have hne : d₀ ≠ d := fun hh => hd.1 hh.symm
    have hrest : d ∉ keysAL rest := hd.2
    have hlk := lookupAL_middle_ne (A := A) (B := B) (o := fs) hne
    rcases hcase : lookupAL d₀ (A ++ B) with _ | rfs
    · rcases ih hrest A B with ⟨A', B', h₁, h₂⟩
      refine ⟨A', B', ?_, ?_⟩
      · simp only [pass1, hlk, hcase, h₁, h₂]
      · simp only [pass1, hcase, h₂]
    · rcases eraseAL_middle_ne (A := A) (B := B) (o := fs) hne with ⟨A₂, B₂, hR, hb⟩
      rcases ih hrest A₂ B₂ with ⟨A', B', h₁, h₂⟩
      refine ⟨A', B', ?_, ?_⟩
      · simp only [pass1, hlk, hcase, hR, h₁, hb, h₂]
      · simp only [pass1, hcase, hb, h₂]

/-- A directory present only on the left side produces exactly one
"Missing Directory" event in the first pass, leaving every other event and
the leftover right listing unchanged. -/
theorem pass1_insertLeft {access : Nat → Bool} {d : String} {fs : Files} :
    ∀ (A : Listing) {B r : Listing}, d ∉ keysAL r →
      ∃ E₁ E₂,
        pass1 access (A ++ (d, fs) :: B) r =
          (E₁ ++ Event.dirMissing1 d (keysAL fs) :: E₂, (pass1 access (A ++ B) r).2) ∧
        (pass1 access (A ++ B) r).1 = E₁ ++ E₂ := by
  intro A
  induction A with
  | nil =>
    intro B r hd
    have hlk : lookupAL d r = none := lookupAL_eq_none_iff.mpr hd
    exact ⟨[], (pass1 access B r).1,
      by simp only [List.nil_append, pass1, hlk], by simp⟩
  | cons p rest ih =>
    rcases p with ⟨d₀, lfs⟩
    intro B r hd
    rcases hcase : lookupAL d₀ r with _ | rfs
    · rcases ih (B := B) hd with ⟨E₁, E₂, h₁, h₂⟩
      exact ⟨Event.dirMissing1 d₀ (keysAL lfs) :: E₁, E₂,
        by simp only [List.cons_append, List.append_eq, pass1, hcase, h₁],
        by simp only [List.cons_append, List.append_eq, pass1, hcase, h₂]⟩
    · have hd' : d ∉ keysAL (eraseAL d₀ r) := fun hm => hd (keysAL_eraseAL_sub hm)
      rcases ih (B := B) hd' with ⟨E₁, E₂, h₁, h₂⟩
      exact ⟨processDirFiles access d₀ lfs rfs ++ E₁, E₂,
        by simp only [List.cons_append, List.append_eq, pass1, hcase, h₁, List.append_assoc,
          List.cons_append],
        by simp only [List.cons_append, List.append_eq, pass1, hcase, h₂, List.append_assoc]⟩

/-- Keys surviving pass 1 in the right listing were keys of the right
listing. -/
theorem pass1_leftover_keys_sub {access : Nat → Bool} :
    ∀ {l r : Listing} {a : String},
      a ∈ keysAL (pass1 access l r).2 → a ∈ keysAL r := by
  intro l
  induction l with
  | nil => intro r a h; exact h
  | cons p rest ih =>
    rcases p with ⟨d, lfs⟩
    intro r a h
    simp only [pass1] at h
    rcases hcase : lookupAL d r with _ | rfs <;> rw [hcase] at h
    · exact ih h
    · exact keysAL_eraseAL_sub (ih h)

/-- Every event of a run names a directory present in one of the two
listings. -/
theorem events_mention_keys {access : Nat → Bool} :
    ∀ {l r : Listing} {e : Event}, e ∈ reconcile access l r →
      eventDir e ∈ keysAL l ∨ eventDir e ∈ keysAL r := by
  intro l
  induction l with
  | nil =>
    intro r e he
    rw [reconcile_nil] at he
    simp only [pass2, List.mem_map] at he
    rcases he with ⟨p, hp, rfl⟩
    exact Or.inr (List.mem_map.mpr ⟨p, hp, rfl⟩)
  | cons p rest ih =>
    rcases p with ⟨d, lfs⟩
    intro r e he
    rcases hcase : lookupAL d r with _ | rfs
    · rw [reconcile_cons_none hcase] at he
      rcases List.mem_cons.mp he with rfl | he
      · exact Or.inl (by simp [eventDir, keysAL])
      · rcases ih he with h | h
        · exact Or.inl (by simp [keysAL] at h ⊢; exact Or.inr h)
        · exact Or.inr h
    · rw [reconcile_cons_some hcase] at he
      rcases List.mem_append.mp he with he | he
      · rcases procFiles_shape e he with ⟨f', hf⟩
        have : eventDir e = d := by
          rcases hf with rfl | rfl | rfl | rfl | rfl <;> rfl
        rw [this]
        exact Or.inl (by simp [keysAL])
      · rcases ih he with h | h
        · exact Or.inl (by simp [keysAL] at h ⊢; exact Or.inr h)
        · exact Or.inr (keysAL_eraseAL_sub h)

theorem mem_eraseAL_sub {l : List (String × α)} {k : String} {p : String × α}
    (h : p ∈ eraseAL k l) : p ∈ l := by
  induction l with
  | nil => simp [eraseAL] at h
  | cons q rest ih =>
    simp only [eraseAL] at h
    split at h
    · exact List.mem_cons_of_mem _ h
    · rcases List.mem_cons.mp h with rfl | h
      · exact List.mem_cons_self _ _
      · exact List.mem_cons_of_mem _ (ih h)

theorem mem_keysAL_eraseAL_ne {l : List (String × α)} {k a : String}
    (h : a ≠ k) : (a ∈ keysAL (eraseAL k l)) ↔ a ∈ keysAL l := by
  rw [← lookupAL_isSome_iff, ← lookupAL_isSome_iff, lookupAL_eraseAL_ne h]

/-! ### Counting lemmas: every file is classified exactly once -/

theorem countP_map_missing2_zero {rfs : Files} {d₂ d f : String}
    (h : f ∉ keysAL rfs) :
    ((rfs.map fun q => Event.missingFile2 d₂ q.1).countP (touches d f)) = 0 := by
  rw [List.countP_eq_zero]
  intro e he
  simp only [List.mem_map] at he
  rcases he with ⟨q, hq, rfl⟩
  simp only [touches]
  intro hc
  rw [decide_eq_true_iff] at hc
  exact h (by rw [← hc.2]; exact List.mem_map.mpr ⟨q, hq, rfl⟩)

theorem keysAL_cons {p : String × α} {l : List (String × α)} :
    keysAL (p :: l) = p.1 :: keysAL l := rfl

theorem countP_map_missing2 {rfs : Files} {d f : String}
    (hnd : (keysAL rfs).Nodup) :
    ((rfs.map fun q => Event.missingFile2 d q.1).countP (touches d f)) =
      if f ∈ keysAL rfs then 1 else 0 := by
  induction rfs with
  | nil => simp [keysAL]
  | cons q rest ih =>
    rw [keysAL_cons, List.nodup_cons] at hnd
    simp only [List.map_cons, List.countP_cons]
    by_cases hq : f = q.1
    · have hfr : f ∉ keysAL rest := hq ▸ hnd.1
      rw [countP_map_missing2_zero hfr]
      have hhead : touches d f (Event.missingFile2 d q.1) = true := by
        simp [touches, hq]
      rw [hhead, keysAL_cons]
      simp [hq]
    · rw [ih hnd.2]
      have hq' : ¬ q.1 = f := fun hh => hq hh.symm
      have hhead : touches d f (Event.missingFile2 d q.1) = false := by
        simp [touches, hq']
      rw [hhead, keysAL_cons]
      simp [hq]

theorem procFiles_countP_touches_ne {access : Nat → Bool} {d d' f : String}
    {lfs rfs : Files} (h : d' ≠ d) :
    (processDirFiles access d lfs rfs).countP (touches d' f) = 0 := by
  rw [List.countP_eq_zero]
  intro e he
  rcases procFiles_shape e he with ⟨f', hf⟩
  have hd : ¬ d = d' := fun hh => h hh.symm
  rcases hf with rfl | rfl | rfl | rfl | rfl <;> simp [touches, hd]

theorem procFiles_countP_touches {access : Nat → Bool} {d f : String} :
    ∀ {lfs rfs : Files}, (keysAL lfs).Nodup → (keysAL rfs).Nodup →
      (processDirFiles access d lfs rfs).countP (touches d f) =
        if f ∈ keysAL lfs ∨ f ∈ keysAL rfs then 1 else 0 := by
  intro lfs
  induction lfs with
  | nil =>
    intro rfs _ hndr
    simp only [processDirFiles, keysAL, List.map_nil, List.not_mem_nil,
      false_or]
    exact countP_map_missing2 hndr
  | cons p restL ih =>
    rcases p with ⟨f₀, o⟩
    intro rfs hndl hndr
    rw [keysAL_cons, List.nodup_cons] at hndl
    rcases hcase : lookupAL f₀ rfs with _ | o₂
    · simp only [processDirFiles, hcase, List.countP_cons]
      have hr : f₀ ∉ keysAL rfs := lookupAL_eq_none_iff.mp hcase
      by_cases hf : f ∈ keysAL restL ∨ f ∈ keysAL rfs
      · have hf₀ : ¬ f₀ = f := by
          rintro rfl
          rcases hf with hf | hf
          · exact hndl.1 hf
          · exact hr hf
        have hhead : touches d f (Event.missingFile1 d f₀) = false := by
          simp [touches, hf₀]
        rw [ih hndl.2 hndr, if_pos hf, hhead, keysAL_cons]
        have : f ∈ f₀ :: keysAL restL ∨ f ∈ keysAL rfs := by
          rcases hf with hf | hf
          · exact Or.inl (List.mem_cons_of_mem _ hf)
          · exact Or.inr hf
        rw [if_pos this]
        simp
      · by_cases hf₀ : f₀ = f
        · have hhead : touches d f (Event.missingFile1 d f₀) = true := by
            simp [touches, hf₀]
          rw [ih hndl.2 hndr, if_neg hf, hhead, keysAL_cons]
          have : f ∈ f₀ :: keysAL restL ∨ f ∈ keysAL rfs :=
            Or.inl (hf₀ ▸ List.mem_cons_self _ _)
          rw [if_pos this]
          simp
        · have hhead : touches d f (Event.missingFile1 d f₀) = false := by
            simp [touches, hf₀]
          rw [ih hndl.2 hndr, if_neg hf, hhead, keysAL_cons]
          have : ¬ (f ∈ f₀ :: keysAL restL ∨ f ∈ keysAL rfs) := by
            push_neg at hf ⊢
            refine ⟨?_, hf.2⟩
            rw [List.mem_cons]
            push_neg
            exact ⟨fun hh => hf₀ hh.symm, hf.1⟩
          rw [if_neg this]
          simp
    · simp only [processDirFiles, hcase, List.countP_cons]
      have hnde : (keysAL (eraseAL f₀ rfs)).Nodup := keysAL_eraseAL_nodup hndr
      have hr : f₀ ∈ keysAL rfs :=
        lookupAL_isSome_iff.mp (by rw [hcase]; rfl)
      by_cases hf₀ : f₀ = f
      · subst hf₀
        have h₁ : (processDirFiles access d restL (eraseAL f₀ rfs)).countP
            (touches d f₀) = 0 := by
          rw [ih hndl.2 hnde]
          have : ¬ (f₀ ∈ keysAL restL ∨ f₀ ∈ keysAL (eraseAL f₀ rfs)) := by
            push_neg
            exact ⟨hndl.1, not_mem_keysAL_eraseAL hndr⟩
          rw [if_neg this]
        have hhead : touches d f₀ (classifyEv d f₀ (compareFiles access o o₂)) = true := by
          cases compareFiles access o o₂ <;> simp [classifyEv, touches]
        rw [h₁, hhead, keysAL_cons]
        have : f₀ ∈ f₀ :: keysAL restL ∨ f₀ ∈ keysAL rfs :=
          Or.inl (List.mem_cons_self _ _)
        rw [if_pos this]
        simp
      · have hmem : (f ∈ keysAL (eraseAL f₀ rfs)) ↔ f ∈ keysAL rfs :=
          mem_keysAL_eraseAL_ne fun hh => hf₀ hh.symm
        have hhead : touches d f (classifyEv d f₀ (compareFiles access o o₂)) = false := by
          cases compareFiles access o o₂ <;> simp [classifyEv, touches, hf₀]
        rw [ih hndl.2 hnde, hhead, keysAL_cons]
        have hcond : (f ∈ keysAL restL ∨ f ∈ keysAL (eraseAL f₀ rfs)) ↔
            (f ∈ f₀ :: keysAL restL ∨ f ∈ keysAL rfs) := by
          rw [hmem, List.mem_cons]
          constructor
          · rintro (h | h)
            · exact Or.inl (Or.inr h)
            · exact Or.inr h
          · rintro (h | h)
            · rcases h with h | h
              · exact absurd h.symm hf₀
              · exact Or.inl h
            · exact Or.inr h
        rw [if_congr hcond rfl rfl]
        simp

theorem pass2_countP_touches_zero {r : Listing} {d f : String}
    (h : d ∉ keysAL r) : (pass2 r).countP (touches d f) = 0 := by
  rw [List.countP_eq_zero]
  intro e he
  simp only [pass2, List.mem_map] at he
  rcases he with ⟨p, hp, rfl⟩
  simp only [touches]
  intro hc
  rw [decide_eq_true_iff] at hc
  exact h (by rw [← hc.1]; exact List.mem_map.mpr ⟨p, hp, rfl⟩)

theorem pass2_countP_touches {r : Listing} {d f : String}
    (hnd : (keysAL r).Nodup) :
    (pass2 r).countP (touches d f) = if hasFileB r d f then 1 else 0 := by
  induction r with
  | nil => simp [pass2, hasFileB, lookupAL]
  | cons p rest ih =>
    rcases p with ⟨d₀, fs⟩
    rw [keysAL_cons, List.nodup_cons] at hnd
    simp only [pass2, List.map_cons, List.countP_cons]
    by_cases hd : d₀ = d
    · subst hd
      have h₀ : (pass2 rest).countP (touches d₀ f) = 0 :=
        pass2_countP_touches_zero hnd.1
      show (pass2 rest).countP (touches d₀ f) + _ = _
      rw [h₀]
      have h₁ : hasFileB ((d₀, fs) :: rest) d₀ f = (lookupAL f fs).isSome := by
        simp [hasFileB, lookupAL]
      rw [h₁]
      by_cases hf : f ∈ keysAL fs
      · have hhead : touches d₀ f (Event.dirMissing2 d₀ (keysAL fs)) = true := by
          simp [touches, hf]
        rw [hhead, lookupAL_isSome_iff.mpr hf]
        simp
      · have hhead : touches d₀ f (Event.dirMissing2 d₀ (keysAL fs)) = false := by
          simp [touches, hf]
        rw [hhead, lookupAL_eq_none_iff.mpr hf]
        simp
    · have hrec := ih hnd.2
      have hhead : touches d f (Event.dirMissing2 d₀ (keysAL fs)) = false := by
        simp [touches, hd]
      show (pass2 rest).countP (touches d f) + _ = _
      rw [hrec, hhead]
      have h₁ : hasFileB ((d₀, fs) :: rest) d f = hasFileB rest d f := by
        simp [hasFileB, lookupAL, hd]
      rw [h₁]
      simp

/-- Claim C4, file part, as a lemma over the loop: with dict-shaped
listings (unique directory keys, unique file names per directory), each
file name present in either listing is touched by exactly one event —
counted once as match / mismatch / cannot-compare / missing, or named once
inside a missing-directory event — and a file present in neither is never
touched. -/
theorem reconcile_countP_touches {access : Nat → Bool} :
    ∀ {l r : Listing}, (keysAL l).Nodup → (keysAL r).Nodup →
      (∀ p ∈ l, (keysAL p.2).Nodup) → (∀ p ∈ r, (keysAL p.2).Nodup) →
      ∀ d f, (reconcile access l r).countP (touches d f) =
        if hasFileB l d f || hasFileB r d f then 1 else 0 := by
  intro l
  induction l with
  | nil =>
    intro r _ hndr _ hdirs d f
    rw [reconcile_nil]
    rw [pass2_countP_touches hndr]
    have h0 : hasFileB [] d f = false := rfl
    rw [h0]
    simp
  | cons p rest ih =>
    rcases p with ⟨d₀, lfs⟩
    intro r hndl hndr hldirs hrdirs d f
    rw [keysAL_cons, List.nodup_cons] at hndl
    have hlfs : (keysAL lfs).Nodup := hldirs (d₀, lfs) (List.mem_cons_self _ _)
    have hldirs' : ∀ p ∈ rest, (keysAL p.2).Nodup :=
      fun p hp => hldirs p (List.mem_cons_of_mem _ hp)
    rcases hcase : lookupAL d₀ r with _ | rfs
    · rw [reconcile_cons_none hcase, List.countP_cons]
      have hrec := ih hndl.2 hndr hldirs' hrdirs d f
      by_cases hd : d₀ = d
      · subst hd
        have h₀ : hasFileB rest d₀ f = false := by
          simp only [hasFileB]
          rw [lookupAL_eq_none_iff.mpr hndl.1]
        have h₁ : hasFileB r d₀ f = false := by
          simp only [hasFileB, hcase]
        have h₂ : hasFileB ((d₀, lfs) :: rest) d₀ f = (lookupAL f lfs).isSome := by
          simp [hasFileB, lookupAL]
        rw [hrec, h₀, h₁, h₂]
        by_cases hf : f ∈ keysAL lfs
        · have hhead : touches d₀ f (Event.dirMissing1 d₀ (keysAL lfs)) = true := by
            simp [touches, hf]
          rw [hhead, lookupAL_isSome_iff.mpr hf]
          simp
        · have hhead : touches d₀ f (Event.dirMissing1 d₀ (keysAL lfs)) = false := by
            simp [touches, hf]
          rw [hhead, lookupAL_eq_none_iff.mpr hf]
          simp
      · have hhead : touches d f (Event.dirMissing1 d₀ (keysAL lfs)) = false := by
          simp [touches, hd]
        have h₁ : hasFileB ((d₀, lfs) :: rest) d f = hasFileB rest d f := by
          simp [hasFileB, lookupAL, hd]
        rw [hrec, hhead, h₁]
        simp
    · rw [reconcile_cons_some hcase, List.countP_append]
      have hrfs : (keysAL rfs).Nodup := hrdirs _ (lookupAL_mem hcase)
      have hrdirs' : ∀ p ∈ eraseAL d₀ r, (keysAL p.2).Nodup :=
        fun p hp => hrdirs p (mem_eraseAL_sub hp)
      have hrec := ih hndl.2 (keysAL_eraseAL_nodup hndr) hldirs' hrdirs' d f
      by_cases hd : d₀ = d
      · subst hd
        have h₀ : hasFileB rest d₀ f = false := by
          simp only [hasFileB]
          rw [lookupAL_eq_none_iff.mpr hndl.1]
        have h₁ : hasFileB (eraseAL d₀ r) d₀ f = false := by
          simp only [hasFileB]
          rw [lookupAL_eq_none_iff.mpr (not_mem_keysAL_eraseAL hndr)]
        have h₂ : hasFileB ((d₀, lfs) :: rest) d₀ f = (lookupAL f lfs).isSome := by
          simp [hasFileB, lookupAL]
        have h₃ : hasFileB r d₀ f = (lookupAL f rfs).isSome := by
          simp [hasFileB, hcase]
        rw [hrec, h₀, h₁, h₂, h₃]
        rw [procFiles_countP_touches hlfs hrfs]
        rcases hlf : lookupAL f lfs with _ | v₁
        · rcases hrf : lookupAL f rfs with _ | v₂
          · have hm : ¬ (f ∈ keysAL lfs ∨ f ∈ keysAL rfs) := by
              push_neg
              exact ⟨lookupAL_eq_none_iff.mp hlf, lookupAL_eq_none_iff.mp hrf⟩
            rw [if_neg hm]
            simp
          · have hm : f ∈ keysAL lfs ∨ f ∈ keysAL rfs :=
              Or.inr (lookupAL_isSome_iff.mp (by rw [hrf]; rfl))
            rw [if_pos hm]
            simp
        · have hm : f ∈ keysAL lfs ∨ f ∈ keysAL rfs :=
            Or.inl (lookupAL_isSome_iff.mp (by rw [hlf]; rfl))
          rw [if_pos hm]
          simp
      · rw [procFiles_countP_touches_ne fun hh => hd hh.symm, hrec]
        have h₁ : hasFileB ((d₀, lfs) :: rest) d f = hasFileB rest d f := by
          simp [hasFileB, lookupAL, hd]
        have h₂ : hasFileB (eraseAL d₀ r) d f = hasFileB r d f := by
          simp only [hasFileB]
          rw [lookupAL_eraseAL_ne fun hh => hd hh.symm]
        rw [h₁, h₂]
        omega

/-! ### Directory visit lemmas -/

theorem pass1_leftover_keys_nodup {access : Nat → Bool} :
    ∀ {l r : Listing}, (keysAL r).Nodup → (keysAL (pass1 access l r).2).Nodup := by
  intro l
  induction l with
  | nil => intro r h; exact h
  | cons p rest ih =>
    rcases p with ⟨d, lfs⟩
    intro r h
    simp only [pass1]
    rcases hcase : lookupAL d r with _ | rfs
    · exact ih h
    · exact ih (keysAL_eraseAL_nodup h)

theorem pass1_leftover_keys_iff {access : Nat → Bool} :
    ∀ {l r : Listing} {a : String}, (keysAL r).Nodup →
      (a ∈ keysAL (pass1 access l r).2 ↔ a ∈ keysAL r ∧ a ∉ keysAL l) := by
  intro l
  induction l with
  | nil =>
    intro r a _
    simp [pass1, keysAL]
  | cons p rest ih =>
    rcases p with ⟨d, lfs⟩
    intro r a hnd
    simp only [pass1]
    rcases hcase : lookupAL d r with _ | rfs
    · rw [ih hnd]
      have hd : d ∉ keysAL r := lookupAL_eq_none_iff.mp hcase
      constructor
      · rintro ⟨h₁, h₂⟩
        refine ⟨h₁, ?_⟩
        simp only [keysAL, List.map_cons, List.mem_cons]
        rintro (rfl | hm)
        · exact hd h₁
        · exact h₂ hm
      · rintro ⟨h₁, h₂⟩
        simp only [keysAL, List.map_cons, List.mem_cons] at h₂
        push_neg at h₂
        exact ⟨h₁, h₂.2⟩
    · rw [ih (keysAL_eraseAL_nodup hnd)]
      by_cases ha : a = d
      · subst ha
        simp only [keysAL, List.map_cons, List.mem_cons]
        constructor
        · rintro ⟨h₁, _⟩
          exact absurd h₁ (not_mem_keysAL_eraseAL hnd)
        · rintro ⟨_, h₂⟩
          exact absurd (Or.inl trivial) h₂
      · rw [mem_keysAL_eraseAL_ne ha]
        simp only [keysAL, List.map_cons, List.mem_cons]
        constructor
        · rintro ⟨h₁, h₂⟩
          exact ⟨h₁, fun hm => hm.elim ha h₂⟩
        · rintro ⟨h₁, h₂⟩
          push_neg at h₂
          exact ⟨h₁, h₂.2⟩

/-- Claim C4, directory part, as a lemma: each directory path present in
either listing is visited in exactly one loop iteration (first pass over
the left listing, second pass over what remains of the right one). -/
theorem visitedDirs_count {access : Nat → Bool} {l r : Listing}
    (hndl : (keysAL l).Nodup) (hndr : (keysAL r).Nodup) (d : String) :
    (visitedDirs access l r).count d =
      if d ∈ keysAL l ∨ d ∈ keysAL r then 1 else 0 := by
  unfold visitedDirs
  rw [List.count_append]
  rw [List.count_eq_of_nodup hndl,
    List.count_eq_of_nodup (pass1_leftover_keys_nodup hndr)]
  simp only [pass1_leftover_keys_iff hndr]
  by_cases h₁ : d ∈ keysAL l
  · simp [h₁]
  · by_cases h₂ : d ∈ keysAL r <;> simp [h₁, h₂]

/-! ### Diagonal runs -/

theorem compareFiles_self {access : Nat → Bool} {o : FObj}
    (h : readableObj access o = true) : compareFiles access o o = .matched := by
  cases o with
  | reg f =>
    simp only [readableObj] at h
    simp [compareFiles, sha256sum_eq, h]
  | symlink t => simp [compareFiles]

theorem reconcile_self_classify {access : Nat → Bool} {l : Listing} :
    ∀ e ∈ reconcile access l l, isClassifyEv e = true := by
  intro e he
  rw [reconcile_diag] at he
  rcases List.mem_flatten.mp he with ⟨inner, hi, hei⟩
  rcases List.mem_map.mp hi with ⟨p, _, rfl⟩
  rcases List.mem_map.mp hei with ⟨q, _, rfl⟩
  cases compareFiles access q.2 q.2 <;> simp [classifyEv, isClassifyEv]

theorem reconcile_self_allMatch {access : Nat → Bool} {l : Listing}
    (h : allReadable access l) :
    ∀ e ∈ reconcile access l l, ∃ d f, e = Event.fileMatch d f := by
  intro e he
  rw [reconcile_diag] at he
  rcases List.mem_flatten.mp he with ⟨inner, hi, hei⟩
  rcases List.mem_map.mp hi with ⟨p, hp, rfl⟩
  rcases List.mem_map.mp hei with ⟨q, hq, rfl⟩
  rw [compareFiles_self (h p hp q hq)]
  exact ⟨p.1, q.1, rfl⟩

theorem statsOf_allMatch {es : List Event}
    (h : ∀ e ∈ es, ∃ d f, e = Event.fileMatch d f) :
    statsOf es = ⟨es.length, 0, 0, 0, 0, 0⟩ := by
  induction es with
  | nil => rfl
  | cons e rest ih =>
    have h₁ : statsOf (e :: rest) = addStats (bump zeroStats e) (statsOf rest) := by
      show List.foldl bump (bump zeroStats e) rest = _
      exact foldl_bump_eq _ _
    rcases h e (List.mem_cons_self _ _) with ⟨d, f, rfl⟩
    rw [h₁, ih fun e he => h e (List.mem_cons_of_mem _ he)]
    simp [bump, zeroStats, addStats, Nat.add_comm]

theorem retOf_allMatch {es : List Event}
    (h : ∀ e ∈ es, ∃ d f, e = Event.fileMatch d f) : retOf es = 0 := by
  simp only [retOf, List.any_eq_true]
  rw [if_neg]
  rintro ⟨e, he, hset⟩
  rcases h e he with ⟨d, f, rfl⟩
  simp [eventSetsRet] at hset
/-! ### Scanner lemmas -/

theorem attach_flatMap_fst {xs : List α} {g : α → List β} :
    xs.attach.flatMap (fun p => g p.1) = xs.flatMap g := by
  conv_rhs => rw [← List.attach_map_subtype_val xs]
  rw [List.flatMap_map]

/-- Unfolding of the walk without the termination bookkeeping. -/
theorem walkDirs_eq (sorted : Bool) (relpath : String)
    (cs : List (String × FSNode)) :
    walkDirs sorted relpath cs =
      (relpath, cs) ::
        ((if sorted then sortByName (dirsOfChildren cs) else dirsOfChildren cs).flatMap
          fun p => walkDirs sorted (joinRel relpath p.1) p.2) := by
  rw [walkDirs]
  congr 1
  exact attach_flatMap_fst
    (g := fun q : String × List (String × FSNode) =>
      walkDirs sorted (joinRel relpath q.1) q.2)

theorem insertByName_perm (p : String × α) (l : List (String × α)) :
    List.Perm (insertByName p l) (p :: l) := by
  induction l with
  | nil => rfl
  | cons q rest ih =>
    simp only [insertByName]
    split
    · rfl
    · exact (ih.cons q).trans (List.Perm.swap p q rest)

theorem sortByName_perm (l : List (String × α)) :
    List.Perm (sortByName l) l := by
  induction l with
  | nil => rfl
  | cons p rest ih =>
    exact (insertByName_perm p (sortByName rest)).trans (ih.cons p)

theorem keysAL_sortByName_perm (l : List (String × α)) :
    List.Perm (keysAL (sortByName l)) (keysAL l) := (sortByName_perm l).map Prod.fst

theorem lookupAL_sortByName {l : List (String × α)} {k : String}
    (hnd : (keysAL l).Nodup) : lookupAL k (sortByName l) = lookupAL k l := by
  have hnd' : (keysAL (sortByName l)).Nodup :=
    ((keysAL_sortByName_perm l).nodup_iff).mpr hnd
  rcases h : lookupAL k l with _ | v
  · rw [lookupAL_eq_none_iff]
    rw [(keysAL_sortByName_perm l).mem_iff]
    exact lookupAL_eq_none_iff.mp h
  · exact lookupAL_of_mem_nodup hnd' (mem_sortByName.mpr (lookupAL_mem h))

theorem keysAL_filesOfChildren_sublist (cs : List (String × FSNode)) :
    List.Sublist (keysAL (filesOfChildren cs)) (keysAL cs) := by
  induction cs with
  | nil => exact List.Sublist.refl _
  | cons p rest ih =>
    rcases p with ⟨n, node⟩
    cases node with
    | reg f => exact ih.cons₂ n
    | symlink t b =>
      cases b
      · exact ih.cons₂ n
      · exact ih.cons n
    | dir cc => exact ih.cons n

theorem mem_filesOfChildren_link {cs : List (String × FSNode)} {n t : String}
    (h : (n, FSNode.symlink t false) ∈ cs) :
    (n, FObj.symlink t) ∈ filesOfChildren cs :=
  List.mem_filterMap.mpr ⟨(n, FSNode.symlink t false), h, rfl⟩

theorem not_mem_filesOfChildren_dirLink {n t : String} :
    ∀ {cs : List (String × FSNode)}, (keysAL cs).Nodup →
      (n, FSNode.symlink t true) ∈ cs → n ∉ keysAL (filesOfChildren cs) := by
  intro cs
  induction cs with
  | nil => intro _ h; cases h
  | cons p rest ih =>
    intro hnd h
    rw [keysAL_cons, List.nodup_cons] at hnd
    rcases List.mem_cons.mp h with heq | hmem
    · cases heq
      exact fun hm => hnd.1 ((keysAL_filesOfChildren_sublist rest).mem hm)
    · rcases p with ⟨m, node⟩
      have hn : n ∈ keysAL rest := List.mem_map.mpr ⟨_, hmem, rfl⟩
      have hpn : ¬ m = n := fun hh => hnd.1 (hh ▸ hn)
      intro hm
      cases node with
      | reg f =>
        rcases List.mem_cons.mp hm with hm' | hm'
        · exact hpn hm'.symm
        · exact ih hnd.2 hmem hm'
      | symlink t' b =>
        cases b
        · rcases List.mem_cons.mp hm with hm' | hm'
          · exact hpn hm'.symm
          · exact ih hnd.2 hmem hm'
        · exact ih hnd.2 hmem hm
      | dir cc => exact ih hnd.2 hmem hm

/-- A file name's entry in a visited directory's `files` list: a symlink
to a non-directory is recorded (with its target), a symlink to a directory
is not. -/
theorem filesOfDir_link {sorted : Bool} {cs : List (String × FSNode)}
    {n t : String} {b : Bool} (hnd : (keysAL cs).Nodup)
    (h : (n, FSNode.symlink t b) ∈ cs) :
    lookupAL n (filesOfDir sorted cs) =
      if b then none else some (FObj.symlink t) := by
  have hfnd : (keysAL (filesOfChildren cs)).Nodup :=
    List.Sublist.nodup (keysAL_filesOfChildren_sublist cs) hnd
  have hbase : lookupAL n (filesOfChildren cs) =
      if b then none else some (FObj.symlink t) := by
    cases b
    · exact lookupAL_of_mem_nodup hfnd (mem_filesOfChildren_link h)
    · exact lookupAL_eq_none_iff.mpr (not_mem_filesOfChildren_dirLink hnd h)
  unfold filesOfDir
  split
  · rw [lookupAL_sortByName hfnd]
    exact hbase
  · exact hbase

theorem mem_get_contents_iff {sorted : Bool} {cs : List (String × FSNode)}
    {p : String} {fs : Files} :
    (p, fs) ∈ get_contents sorted cs ↔
      ∃ csd, (p, csd) ∈ walkDirs sorted "." cs ∧
        filesOfDir sorted csd = fs ∧ fs ≠ [] := by
  unfold get_contents
  rw [List.mem_filterMap]
  constructor
  · rintro ⟨⟨q, csd⟩, hq, hsome⟩
    split at hsome
    · cases hsome
    · rename_i hne
      rcases hsome with ⟨⟩
      refine ⟨csd, hq, rfl, ?_⟩
      intro hnil
      rw [List.isEmpty_iff] at hne
      exact hne hnil
  · rintro ⟨csd, hmem, rfl, hne⟩
    refine ⟨(p, csd), hmem, ?_⟩
    have hie : (filesOfDir sorted csd).isEmpty = false := by
      rcases hfd : filesOfDir sorted csd with _ | ⟨q, fs'⟩
      · exact absurd hfd hne
      · rfl
    rw [hie]
    rfl

theorem mem_keys_get_contents_iff {sorted : Bool} {cs : List (String × FSNode)}
    {p : String} :
    p ∈ keysAL (get_contents sorted cs) ↔
      ∃ csd, (p, csd) ∈ walkDirs sorted "." cs ∧ filesOfDir sorted csd ≠ [] := by
  constructor
  · intro h
    rcases List.mem_map.mp h with ⟨⟨q, fs⟩, hm, hq⟩
    simp only at hq
    subst hq
    rcases mem_get_contents_iff.mp hm with ⟨csd, h₁, h₂, h₃⟩
    exact ⟨csd, h₁, by rw [h₂]; exact h₃⟩
  · rintro ⟨csd, h₁, h₂⟩
    have hmem : (p, filesOfDir sorted csd) ∈ get_contents sorted cs :=
      mem_get_contents_iff.mpr ⟨csd, h₁, rfl, h₂⟩
    exact List.mem_map.mpr ⟨_, hmem, rfl⟩

/-! ### Point decomposition of a run -/

/-- Comparing two listings that agree everywhere except possibly in the
files of one shared directory `d`: the run is the diagonal classification
of the common prefix, the file loop on `d`, and the diagonal
classification of the common suffix. -/
theorem reconcile_pointDir (access : Nat → Bool) (L₁ L₂ : Listing)
    (d : String) (lfs rfs : Files) :
    reconcile access (L₁ ++ (d, lfs) :: L₂) (L₁ ++ (d, rfs) :: L₂) =
      (L₁.map fun p => p.2.map fun q =>
        classifyEv p.1 q.1 (compareFiles access q.2 q.2)).flatten ++
      processDirFiles access d lfs rfs ++
      (L₂.map fun p => p.2.map fun q =>
        classifyEv p.1 q.1 (compareFiles access q.2 q.2)).flatten := by
  have hkeys : keysAL (L₁ ++ (d, lfs) :: L₂) = keysAL (L₁ ++ (d, rfs) :: L₂) := by
    simp [keysAL]
  rw [reconcile, zipPass1 hkeys]
  simp only [pass2, List.map_nil, List.append_nil]
  rw [List.zipWith_append _ _ _ _ _ rfl, List.zipWith_cons_cons,
    List.flatten_append, List.flatten_cons]
  rw [List.zipWith_same, List.zipWith_same]
  have hmap : ∀ M : Listing,
      (M.map fun p => processDirFiles access p.1 p.2 p.2) =
        M.map fun p => p.2.map fun q =>
          classifyEv p.1 q.1 (compareFiles access q.2 q.2) := by
    intro M
    exact List.map_eq_map_iff.mpr fun p _ =>
      (zipProcFiles rfl).trans (by rw [List.zipWith_same])
  rw [hmap L₁, hmap L₂, List.append_assoc]

/-! ### The claims -/

/-- C8: on a permission-denied first read, `sha256sum` performs exactly one
remediation — it grants the owner read permission (u+r on the mode bits)
and retries the read once on the chmod-ed file; if the retry also fails
the error propagates to the caller; with `retry=False` it never remediates
or retries, so there is never more than one retry. -/
theorem C8_sha256sum_single_retry (access : Nat → Bool) (f : FileObj) :
    (access f.mode = true → sha256sum access f true = (Except.ok f.hash, f)) ∧
    (access f.mode = false → access (addUserRead f).mode = true →
      sha256sum access f true = (Except.ok f.hash, addUserRead f)) ∧
    (access f.mode = false → access (addUserRead f).mode = false →
      sha256sum access f true = (Except.error (), addUserRead f)) ∧
    (∀ g : FileObj, sha256sum access g false =
      if access g.mode then (Except.ok g.hash, g) else (Except.error (), g)) := by
  refine ⟨fun h => ?_, fun h h' => ?_, fun h h' => ?_, fun g => ?_⟩
  · rw [sha256sum_eq, if_pos h]
  · rw [sha256sum_eq, if_neg (by rw [h]; exact Bool.false_ne_true), if_pos rfl,
      if_pos h']
  · rw [sha256sum_eq, if_neg (by rw [h]; exact Bool.false_ne_true), if_pos rfl,
      if_neg (by rw [h']; exact Bool.false_ne_true)]
  · rw [sha256sum_eq]
    by_cases hg : access g.mode
    · rw [if_pos hg, if_pos hg]
    · rw [if_neg hg, if_neg hg, if_neg (Bool.eq_false_iff.mp (by simpa using hg))]

theorem C8_sha256sum_single_retry_witness :
    ((fun m => decide (256 ≤ m)) (FileObj.mk 5 0).mode = false ∧
      sha256sum (fun m => decide (256 ≤ m)) ⟨5, 0⟩ true =
        (Except.ok 5, ⟨5, 256⟩)) ∧
    ((fun _ => false : Nat → Bool) (FileObj.mk 5 0).mode = false ∧
      sha256sum (fun _ => false) ⟨5, 0⟩ true = (Except.error (), ⟨5, 256⟩)) := by
  have hadd : addUserRead ⟨5, 0⟩ = (⟨5, 256⟩ : FileObj) := by
    simp [addUserRead, S_IRUSR]
  constructor
  · refine ⟨by decide, ?_⟩
    have h := (C8_sha256sum_single_retry (fun m => decide (256 ≤ m)) ⟨5, 0⟩).2.1
      (by decide) (by rw [hadd]; decide)
    rw [h, hadd]
  · refine ⟨rfl, ?_⟩
    have h := (C8_sha256sum_single_retry (fun _ => false) ⟨5, 0⟩).2.2.1 rfl rfl
    rw [h, hadd]

/-- C3: for a pair of entries at the same relative path where at least one
side is a symbolic link, the pair classifies as a match exactly when both
sides are symlinks with the identical target string; any other shape
(symlink against regular file regardless of content, or two symlinks with
different targets) classifies as a mismatch, never as a cannot-compare;
and the outcome is independent of the access function, since content
hashing is not invoked in the symlink branch. -/
theorem C3_symlink_classification (access : Nat → Bool) (o₁ o₂ : FObj)
    (h : (isLink o₁ || isLink o₂) = true) :
    ((compareFiles access o₁ o₂ = CompareOutcome.matched) ↔
      ∃ t, o₁ = FObj.symlink t ∧ o₂ = FObj.symlink t) ∧
    ((¬ ∃ t, o₁ = FObj.symlink t ∧ o₂ = FObj.symlink t) →
      compareFiles access o₁ o₂ = CompareOutcome.missmatched) ∧
    (∀ access' : Nat → Bool, compareFiles access' o₁ o₂ = compareFiles access o₁ o₂) := by
  cases o₁ with
  | reg f₁ =>
    cases o₂ with
    | reg f₂ => simp [isLink] at h
    | symlink t₂ =>
      refine ⟨by simp [compareFiles], fun _ => by simp [compareFiles],
        fun _ => by simp [compareFiles]⟩
  | symlink t₁ =>
    cases o₂ with
    | reg f₂ =>
      refine ⟨by simp [compareFiles], fun _ => by simp [compareFiles],
        fun _ => by simp [compareFiles]⟩
    | symlink t₂ =>
      by_cases ht : t₁ = t₂
      · subst ht
        refine ⟨by simp [compareFiles], fun hc => absurd ⟨t₁, rfl, rfl⟩ hc,
          fun _ => by simp [compareFiles]⟩
      · refine ⟨?_, fun _ => by simp [compareFiles, ht], fun _ => by simp [compareFiles]⟩
        simp only [compareFiles, if_pos (by exact ht)]
        constructor
        · intro hc
          cases hc
        · rintro ⟨t, ht₁, ht₂⟩
          cases ht₁
          cases ht₂
          exact absurd rfl ht

theorem C3_symlink_classification_witness :
    ((isLink (FObj.symlink "a") || isLink (FObj.reg ⟨3, 0⟩)) = true) ∧
    compareFiles (fun _ => true) (FObj.symlink "a") (FObj.reg ⟨3, 0⟩) =
      CompareOutcome.missmatched ∧
    compareFiles (fun _ => true) (FObj.symlink "a") (FObj.symlink "a") =
      CompareOutcome.matched := by
  refine ⟨rfl, ?_, ?_⟩
  · exact (C3_symlink_classification (fun _ => true) (FObj.symlink "a")
      (FObj.reg ⟨3, 0⟩) rfl).2.1 (by rintro ⟨t, _, ht⟩; cases ht)
  · exact (C3_symlink_classification (fun _ => true) (FObj.symlink "a")
      (FObj.symlink "a") rfl).1.mpr ⟨"a", rfl, rfl⟩

/-- C1 (code bug): when the total number of compared files is zero — here,
comparing two empty trees with statistics enabled — the statistics block
divides by zero: `stats['match']/file_total` raises `ZeroDivisionError`
instead of reporting 0% or "no files compared". -/
theorem C1_zero_total_division_error :
    statsReport (statsOf (reconcile (fun _ => true)
      (get_contents false []) (get_contents false []))) = Except.error () := by
  have h : get_contents false ([] : List (String × FSNode)) = [] := by
    rw [get_contents, walkDirs_eq]
    simp [dirsOfChildren, filesOfDir, filesOfChildren]
  rw [h]
  rfl

/-- C5: comparing two identical directory trees — same scan, hence equal
listings — with every recorded file readable yields zero mismatches, zero
missing files in either direction, zero missing directories in either
direction, and the clean return value 0. -/
theorem C5_identical_trees_clean (access : Nat → Bool) (sorted : Bool)
    (cs : List (String × FSNode))
    (h : allReadable access (get_contents sorted cs)) :
    (statsOf (reconcile access (get_contents sorted cs)
        (get_contents sorted cs))).missmatch = 0 ∧
    (statsOf (reconcile access (get_contents sorted cs)
        (get_contents sorted cs))).missing1 = 0 ∧
    (statsOf (reconcile access (get_contents sorted cs)
        (get_contents sorted cs))).missing2 = 0 ∧
    (statsOf (reconcile access (get_contents sorted cs)
        (get_contents sorted cs))).dir_missing1 = 0 ∧
    (statsOf (reconcile access (get_contents sorted cs)
        (get_contents sorted cs))).dir_missing2 = 0 ∧
    retOf (reconcile access (get_contents sorted cs)
        (get_contents sorted cs)) = 0 := by
  have hall := reconcile_self_allMatch (l := get_contents sorted cs) h
  rw [statsOf_allMatch hall]
  exact ⟨rfl, rfl, rfl, rfl, rfl, retOf_allMatch hall⟩

theorem C5_identical_trees_clean_witness :
    allReadable (fun _ => true)
      (get_contents false [("a.txt", FSNode.reg ⟨11, 256⟩)]) ∧
    retOf (reconcile (fun _ => true)
      (get_contents false [("a.txt", FSNode.reg ⟨11, 256⟩)])
      (get_contents false [("a.txt", FSNode.reg ⟨11, 256⟩)])) = 0 := by
  have hgc : get_contents false [("a.txt", FSNode.reg ⟨11, 256⟩)] =
      [(".", [("a.txt", FObj.reg ⟨11, 256⟩)])] := by
    rw [get_contents, walkDirs_eq]
    simp [dirsOfChildren, filesOfDir, filesOfChildren]
  have hall : allReadable (fun _ => true)
      (get_contents false [("a.txt", FSNode.reg ⟨11, 256⟩)]) := by
    rw [hgc]
    intro p hp q hq
    rw [List.mem_singleton] at hp
    subst hp
    rw [List.mem_singleton] at hq
    subst hq
    rfl
  exact ⟨hall,
    (C5_identical_trees_clean (fun _ => true) false
      [("a.txt", FSNode.reg ⟨11, 256⟩)] hall).2.2.2.2.2⟩

/-- C2 counterexample: a shared file unreadable even after the chmod retry
is reported as "cannot compare", yet the run counts it as a match — the
match counter is incremented, refuting "increments neither the match
counter nor the mismatch counter". -/
theorem C2_counterexample :
    reconcile (fun _ => false) [(".", [("f", FObj.reg ⟨7, 0⟩)])]
        [(".", [("f", FObj.reg ⟨9, 0⟩)])] = [Event.cannotCompare "." "f"] ∧
    statsOf (reconcile (fun _ => false) [(".", [("f", FObj.reg ⟨7, 0⟩)])]
        [(".", [("f", FObj.reg ⟨9, 0⟩)])]) =
      { match' := 1, missmatch := 0, missing1 := 0, missing2 := 0,
        dir_missing1 := 0, dir_missing2 := 0 } ∧
    retOf (reconcile (fun _ => false) [(".", [("f", FObj.reg ⟨7, 0⟩)])]
        [(".", [("f", FObj.reg ⟨9, 0⟩)])]) = 0 := by
  have hc : compareFiles (fun _ => false) (FObj.reg ⟨7, 0⟩) (FObj.reg ⟨9, 0⟩) =
      CompareOutcome.cannotCompare := by
    simp [compareFiles, sha256sum_eq]
  have hr : reconcile (fun _ => false) [(".", [("f", FObj.reg ⟨7, 0⟩)])]
      [(".", [("f", FObj.reg ⟨9, 0⟩)])] = [Event.cannotCompare "." "f"] := by
    have hl : lookupAL "." [(".", [("f", FObj.reg ⟨9, 0⟩)])] =
        some [("f", FObj.reg ⟨9, 0⟩)] := rfl
    rw [reconcile_cons_some hl]
    simp [processDirFiles, lookupAL, eraseAL, hc, classifyEv, reconcile_nil,
      pass2]
  exact ⟨hr, by rw [hr]; rfl, by rw [hr]; rfl⟩

/-- C2 as amended: for a file present in both trees whose comparison hits
a permission error (after the retry), the run emits exactly one distinct
"cannot compare" report event for it, does not increment the mismatch
counter and does not set the failure return status by itself — but it does
increment the match counter (the file is counted as a match). -/
theorem C2_cannot_compare_behaviour (access : Nat → Bool) (L₁ L₂ : Listing)
    (d : String) (fs₁ fs₂ : Files) (f : String) (o₁ o₂ : FObj)
    (h : compareFiles access o₁ o₂ = CompareOutcome.cannotCompare) :
    ∃ A B,
      reconcile access (L₁ ++ (d, fs₁ ++ (f, o₁) :: fs₂) :: L₂)
          (L₁ ++ (d, fs₁ ++ (f, o₂) :: fs₂) :: L₂) =
        A ++ Event.cannotCompare d f :: B ∧
      statsOf (reconcile access (L₁ ++ (d, fs₁ ++ (f, o₁) :: fs₂) :: L₂)
          (L₁ ++ (d, fs₁ ++ (f, o₂) :: fs₂) :: L₂)) =
        addStats (statsOf (A ++ B)) ⟨1, 0, 0, 0, 0, 0⟩ ∧
      retOf (reconcile access (L₁ ++ (d, fs₁ ++ (f, o₁) :: fs₂) :: L₂)
          (L₁ ++ (d, fs₁ ++ (f, o₂) :: fs₂) :: L₂)) = retOf (A ++ B) := by
  have hpt := reconcile_pointDir access L₁ L₂ d
    (fs₁ ++ (f, o₁) :: fs₂) (fs₁ ++ (f, o₂) :: fs₂)
  have hnames : keysAL (fs₁ ++ (f, o₁) :: fs₂) = keysAL (fs₁ ++ (f, o₂) :: fs₂) := by
    simp [keysAL]
  have hproc : processDirFiles access d (fs₁ ++ (f, o₁) :: fs₂)
      (fs₁ ++ (f, o₂) :: fs₂) =
      List.zipWith (fun p q => classifyEv d p.1 (compareFiles access p.2 q.2))
        fs₁ fs₁ ++
      Event.cannotCompare d f ::
      List.zipWith (fun p q => classifyEv d p.1 (compareFiles access p.2 q.2))
        fs₂ fs₂ := by
    rw [zipProcFiles hnames, List.zipWith_append _ _ _ _ _ rfl,
      List.zipWith_cons_cons]
    simp only [h, classifyEv]
  refine ⟨(L₁.map fun p => p.2.map fun q =>
      classifyEv p.1 q.1 (compareFiles access q.2 q.2)).flatten ++
      List.zipWith (fun p q => classifyEv d p.1 (compareFiles access p.2 q.2))
        fs₁ fs₁,
    List.zipWith (fun p q => classifyEv d p.1 (compareFiles access p.2 q.2))
        fs₂ fs₂ ++
      (L₂.map fun p => p.2.map fun q =>
        classifyEv p.1 q.1 (compareFiles access q.2 q.2)).flatten, ?_, ?_, ?_⟩
  · rw [hpt, hproc]
    simp [List.append_assoc]
  · rw [hpt, hproc]
    have harr : ∀ (X Y Z W : List Event) (e : Event),
        X ++ (Y ++ e :: Z) ++ W = (X ++ Y) ++ e :: (Z ++ W) := by
      intro X Y Z W e
      simp [List.append_assoc]
    rw [harr]
    rw [statsOf_middle]
    rfl
  · rw [hpt, hproc]
    have harr : ∀ (X Y Z W : List Event) (e : Event),
        X ++ (Y ++ e :: Z) ++ W = (X ++ Y) ++ e :: (Z ++ W) := by
      intro X Y Z W e
      simp [List.append_assoc]
    rw [harr]
    exact retOf_middle _ _ rfl

theorem C2_cannot_compare_behaviour_witness :
    compareFiles (fun _ => false) (FObj.reg ⟨7, 0⟩) (FObj.reg ⟨9, 0⟩) =
      CompareOutcome.cannotCompare ∧
    (∃ A B,
      reconcile (fun _ => false) [(".", [("f", FObj.reg ⟨7, 0⟩)])]
          [(".", [("f", FObj.reg ⟨9, 0⟩)])] =
        A ++ Event.cannotCompare "." "f" :: B ∧
      statsOf (reconcile (fun _ => false) [(".", [("f", FObj.reg ⟨7, 0⟩)])]
          [(".", [("f", FObj.reg ⟨9, 0⟩)])]) =
        addStats (statsOf (A ++ B)) ⟨1, 0, 0, 0, 0, 0⟩ ∧
      retOf (reconcile (fun _ => false) [(".", [("f", FObj.reg ⟨7, 0⟩)])]
          [(".", [("f", FObj.reg ⟨9, 0⟩)])]) = retOf (A ++ B)) := by
  have hc : compareFiles (fun _ => false) (FObj.reg ⟨7, 0⟩) (FObj.reg ⟨9, 0⟩) =
      CompareOutcome.cannotCompare := by
    simp [compareFiles, sha256sum_eq]
  exact ⟨hc, C2_cannot_compare_behaviour (fun _ => false) [] [] "." [] []
    "f" (FObj.reg ⟨7, 0⟩) (FObj.reg ⟨9, 0⟩) hc⟩

theorem countP_insert_of_base_zero {A B : List Event} {p : Event → Bool}
    {e : Event} (hbase : (A ++ B).countP p = 0) (he : p e = true) :
    (A ++ e :: B).countP p = 1 := by
  rw [List.countP_append] at hbase
  rw [List.countP_append, List.countP_cons, he, if_pos rfl]
  omega

/-- C6: starting from a pair of equal listings, inserting one extra file
`x` (at any position) into a directory present on both sides, on either
side, produces exactly one Missing File event for `x` and increments
exactly that direction's missing-file counter by one, leaving the match,
mismatch, opposite-direction missing and both directory-missing counters
exactly as in the run without the extra file. -/
theorem C6_one_extra_file (access : Nat → Bool) (L₁ L₂ : Listing)
    (d : String) (fs₁ fs₂ : Files) (x : String) (o : FObj)
    (hx : x ∉ keysAL (fs₁ ++ fs₂)) :
    (statsOf (reconcile access (L₁ ++ (d, fs₁ ++ fs₂) :: L₂)
        (L₁ ++ (d, fs₁ ++ (x, o) :: fs₂) :: L₂)) =
      addStats (statsOf (reconcile access (L₁ ++ (d, fs₁ ++ fs₂) :: L₂)
        (L₁ ++ (d, fs₁ ++ fs₂) :: L₂))) ⟨0, 0, 0, 1, 0, 0⟩ ∧
     (reconcile access (L₁ ++ (d, fs₁ ++ fs₂) :: L₂)
        (L₁ ++ (d, fs₁ ++ (x, o) :: fs₂) :: L₂)).countP
          (fun e => decide (e = Event.missingFile2 d x)) = 1) ∧
    (statsOf (reconcile access (L₁ ++ (d, fs₁ ++ (x, o) :: fs₂) :: L₂)
        (L₁ ++ (d, fs₁ ++ fs₂) :: L₂)) =
      addStats (statsOf (reconcile access (L₁ ++ (d, fs₁ ++ fs₂) :: L₂)
        (L₁ ++ (d, fs₁ ++ fs₂) :: L₂))) ⟨0, 0, 1, 0, 0, 0⟩ ∧
     (reconcile access (L₁ ++ (d, fs₁ ++ (x, o) :: fs₂) :: L₂)
        (L₁ ++ (d, fs₁ ++ fs₂) :: L₂)).countP
          (fun e => decide (e = Event.missingFile1 d x)) = 1) := by
  have harr : ∀ (X Y Z W : List Event) (e : Event),
      X ++ (Y ++ e :: Z) ++ W = (X ++ Y) ++ e :: (Z ++ W) := by
    intro X Y Z W e
    simp [List.append_assoc]
  have harr' : ∀ (X Y Z W : List Event),
      X ++ (Y ++ Z) ++ W = (X ++ Y) ++ (Z ++ W) := by
    intro X Y Z W
    simp [List.append_assoc]
  have hbase := reconcile_pointDir access L₁ L₂ d (fs₁ ++ fs₂) (fs₁ ++ fs₂)
  constructor
  · have hins := reconcile_pointDir access L₁ L₂ d (fs₁ ++ fs₂)
      (fs₁ ++ (x, o) :: fs₂)
    rcases @procFiles_insertRight access d x o (fs₁ ++ fs₂) hx fs₁ fs₂
      with ⟨E₁, E₂, hp₁, hp₂⟩
    rw [hp₁] at hins
    rw [hp₂] at hbase
    rw [harr] at hins
    rw [harr'] at hbase
    have hz : ((reconcile access (L₁ ++ (d, fs₁ ++ fs₂) :: L₂)
        (L₁ ++ (d, fs₁ ++ fs₂) :: L₂)).countP
          (fun e => decide (e = Event.missingFile2 d x))) = 0 := by
      rw [List.countP_eq_zero]
      intro e he hc
      rw [decide_eq_true_iff] at hc
      have := reconcile_self_classify e he
      rw [hc] at this
      simp [isClassifyEv] at this
    constructor
    · rw [hins, hbase, statsOf_middle]
      rfl
    · rw [hins]
      rw [hbase] at hz
      exact countP_insert_of_base_zero hz (by simp)
  · have hins := reconcile_pointDir access L₁ L₂ d (fs₁ ++ (x, o) :: fs₂)
      (fs₁ ++ fs₂)
    rcases @procFiles_insertLeft access d x o fs₁ fs₂ (fs₁ ++ fs₂) hx
      with ⟨E₁, E₂, hp₁, hp₂⟩
    rw [hp₁] at hins
    rw [hp₂] at hbase
    rw [harr] at hins
    rw [harr'] at hbase
    have hz : ((reconcile access (L₁ ++ (d, fs₁ ++ fs₂) :: L₂)
        (L₁ ++ (d, fs₁ ++ fs₂) :: L₂)).countP
          (fun e => decide (e = Event.missingFile1 d x))) = 0 := by
      rw [List.countP_eq_zero]
      intro e he hc
      rw [decide_eq_true_iff] at hc
      have := reconcile_self_classify e he
      rw [hc] at this
      simp [isClassifyEv] at this
    constructor
    · rw [hins, hbase, statsOf_middle]
      rfl
    · rw [hins]
      rw [hbase] at hz
      exact countP_insert_of_base_zero hz (by simp)

theorem C6_one_extra_file_witness :
    ("new" ∉ keysAL (([] : Files) ++ [("a", FObj.reg ⟨1, 1⟩)])) ∧
    (reconcile (fun _ => true) [(".", [("a", FObj.reg ⟨1, 1⟩)])]
      [(".", [("a", FObj.reg ⟨1, 1⟩), ("new", FObj.reg ⟨2, 1⟩)])]).countP
        (fun e => decide (e = Event.missingFile2 "." "new")) = 1 := by
  have hx : "new" ∉ keysAL (([] : Files) ++ [("a", FObj.reg ⟨1, 1⟩)]) := by
    simp [keysAL]
  refine ⟨hx, ?_⟩
  have h := (C6_one_extra_file (fun _ => true) [] [] "." []
    [("a", FObj.reg ⟨1, 1⟩)] "new" (FObj.reg ⟨2, 1⟩) hx).1.2
  simpa using h

/-- C7: a relative directory path present in only one listing produces
exactly one Missing Directory event carrying that directory's file names
(whose count is the printed file count), increments that direction's
directory-missing counter by one and that direction's missing-file counter
by the directory's file count, leaves all other counters as in the run
without that directory, and performs no per-file classification for its
files: no other event of the run names that directory. -/
theorem C7_missing_directory (access : Nat → Bool) (d : String) (fs : Files)
    (l A B : Listing) (hdl : d ∉ keysAL l) (hdr : d ∉ keysAL (A ++ B)) :
    (∃ E₁ E₂,
      reconcile access l (A ++ (d, fs) :: B) =
        E₁ ++ Event.dirMissing2 d (keysAL fs) :: E₂ ∧
      reconcile access l (A ++ B) = E₁ ++ E₂ ∧
      statsOf (reconcile access l (A ++ (d, fs) :: B)) =
        addStats (statsOf (reconcile access l (A ++ B)))
          ⟨0, 0, 0, fs.length, 0, 1⟩ ∧
      (reconcile access l (A ++ (d, fs) :: B)).countP
        (fun e => decide (eventDir e = d)) = 1) ∧
    (∃ E₁ E₂,
      reconcile access (A ++ (d, fs) :: B) l =
        E₁ ++ Event.dirMissing1 d (keysAL fs) :: E₂ ∧
      reconcile access (A ++ B) l = E₁ ++ E₂ ∧
      statsOf (reconcile access (A ++ (d, fs) :: B) l) =
        addStats (statsOf (reconcile access (A ++ B) l))
          ⟨0, 0, fs.length, 0, 1, 0⟩ ∧
      (reconcile access (A ++ (d, fs) :: B) l).countP
        (fun e => decide (eventDir e = d)) = 1) := by
  have hbasezero : ∀ es : List Event,
      (∀ e ∈ es, eventDir e ∈ keysAL l ∨ eventDir e ∈ keysAL (A ++ B)) →
      es.countP (fun e => decide (eventDir e = d)) = 0 := by
    intro es hmem
    rw [List.countP_eq_zero]
    intro e he hc
    rw [decide_eq_true_iff] at hc
    rcases hmem e he with h | h
    · exact hdl (hc ▸ h)
    · exact hdr (hc ▸ h)
  constructor
  · rcases @pass1_insertRight access d fs l hdl A B
      with ⟨A', B', h₁, h₂⟩
    have hins : reconcile access l (A ++ (d, fs) :: B) =
        ((pass1 access l (A ++ B)).1 ++ pass2 A') ++
          Event.dirMissing2 d (keysAL fs) :: pass2 B' := by
      rw [reconcile, h₁]
      show (pass1 access l (A ++ B)).1 ++ pass2 (A' ++ (d, fs) :: B') = _
      simp [pass2, List.append_assoc]
    have hbase : reconcile access l (A ++ B) =
        ((pass1 access l (A ++ B)).1 ++ pass2 A') ++ pass2 B' := by
      rw [reconcile, h₂]
      simp [pass2, List.append_assoc]
    refine ⟨(pass1 access l (A ++ B)).1 ++ pass2 A', pass2 B', hins, hbase, ?_, ?_⟩
    · rw [hins, hbase, statsOf_middle]
      have hst : statsOf [Event.dirMissing2 d (keysAL fs)] =
          ⟨0, 0, 0, fs.length, 0, 1⟩ := by
        simp [statsOf, bump, zeroStats, keysAL]
      rw [hst]
    · rw [hins]
      have hz : (((pass1 access l (A ++ B)).1 ++ pass2 A') ++ pass2 B').countP
          (fun e => decide (eventDir e = d)) = 0 := by
        apply hbasezero
        intro e he
        rw [← hbase] at he
        exact events_mention_keys he
      exact countP_insert_of_base_zero hz (by simp [eventDir])
  · rcases @pass1_insertLeft access d fs A B l hdl
      with ⟨E₁, E₂, h₁, h₂⟩
    have hins : reconcile access (A ++ (d, fs) :: B) l =
        E₁ ++ Event.dirMissing1 d (keysAL fs) ::
          (E₂ ++ pass2 (pass1 access (A ++ B) l).2) := by
      rw [reconcile, h₁]
      show (E₁ ++ Event.dirMissing1 d (keysAL fs) :: E₂) ++ _ = _
      simp [List.append_assoc]
    have hbase : reconcile access (A ++ B) l =
        E₁ ++ (E₂ ++ pass2 (pass1 access (A ++ B) l).2) := by
      rw [reconcile, h₂]
      simp [List.append_assoc]
    refine ⟨E₁, E₂ ++ pass2 (pass1 access (A ++ B) l).2, hins, hbase.symm ▸ rfl, ?_, ?_⟩
    · rw [hins, hbase, statsOf_middle]
      have hst : statsOf [Event.dirMissing1 d (keysAL fs)] =
          ⟨0, 0, fs.length, 0, 1, 0⟩ := by
        simp [statsOf, bump, zeroStats, keysAL]
      rw [hst]
    · rw [hins]
      have hz : (E₁ ++ (E₂ ++ pass2 (pass1 access (A ++ B) l).2)).countP
          (fun e => decide (eventDir e = d)) = 0 := by
        apply hbasezero
        intro e he
        rw [← hbase] at he
        rcases events_mention_keys he with h | h
        · exact Or.inr h
        · exact Or.inl h
      exact countP_insert_of_base_zero hz (by simp [eventDir])

theorem C7_missing_directory_witness :
    ("sub" ∉ keysAL ([(".", [("a", FObj.reg ⟨1, 1⟩)])] : Listing)) ∧
    ("sub" ∉ keysAL (([] : Listing) ++ [])) ∧
    (reconcile (fun _ => true) [(".", [("a", FObj.reg ⟨1, 1⟩)])]
      [("sub", [("p", FObj.reg ⟨2, 1⟩), ("q", FObj.reg ⟨3, 1⟩),
        ("r", FObj.reg ⟨4, 1⟩)])]).countP
        (fun e => decide (eventDir e = "sub")) = 1 ∧
    statsOf (reconcile (fun _ => true) [(".", [("a", FObj.reg ⟨1, 1⟩)])]
      [("sub", [("p", FObj.reg ⟨2, 1⟩), ("q", FObj.reg ⟨3, 1⟩),
        ("r", FObj.reg ⟨4, 1⟩)])]) =
      addStats (statsOf (reconcile (fun _ => true)
        [(".", [("a", FObj.reg ⟨1, 1⟩)])] ([] ++ [])))
        ⟨0, 0, 0, 3, 0, 1⟩ := by
  have hdl : "sub" ∉ keysAL ([(".", [("a", FObj.reg ⟨1, 1⟩)])] : Listing) := by
    simp [keysAL]
  have hdr : "sub" ∉ keysAL (([] : Listing) ++ []) := by
    simp [keysAL]
  have h := (C7_missing_directory (fun _ => true) "sub"
    [("p", FObj.reg ⟨2, 1⟩), ("q", FObj.reg ⟨3, 1⟩), ("r", FObj.reg ⟨4, 1⟩)]
    [(".", [("a", FObj.reg ⟨1, 1⟩)])] [] [] hdl hdr).1
  rcases h with ⟨E₁, E₂, _, _, hstats, hcount⟩
  exact ⟨hdl, hdr, by simpa using hcount, by simpa using hstats⟩

/-- C4: with dict-shaped listings (unique directory keys, unique file
names within each directory), reconciliation touches every file name
present in either listing in exactly one event — one classification,
missing-file, or enclosing missing-directory event — and visits every
relative directory path present in either listing in exactly one loop
iteration; names present in neither listing are never touched. -/
theorem C4_exactly_once (access : Nat → Bool) (l r : Listing)
    (hndl : (keysAL l).Nodup) (hndr : (keysAL r).Nodup)
    (hl : ∀ p ∈ l, (keysAL p.2).Nodup) (hr : ∀ p ∈ r, (keysAL p.2).Nodup) :
    (∀ d f, (reconcile access l r).countP (touches d f) =
      if hasFileB l d f || hasFileB r d f then 1 else 0) ∧
    (∀ d, (visitedDirs access l r).count d =
      if d ∈ keysAL l ∨ d ∈ keysAL r then 1 else 0) :=
  ⟨reconcile_countP_touches hndl hndr hl hr,
   fun d => visitedDirs_count hndl hndr d⟩

theorem C4_exactly_once_witness :
    ((keysAL ([(".", [("a", FObj.reg ⟨1, 1⟩)])] : Listing)).Nodup ∧
     (keysAL ([("sub", [("b", FObj.reg ⟨2, 1⟩)])] : Listing)).Nodup) ∧
    (visitedDirs (fun _ => true) [(".", [("a", FObj.reg ⟨1, 1⟩)])]
      [("sub", [("b", FObj.reg ⟨2, 1⟩)])]).count "sub" =
      if "sub" ∈ keysAL ([(".", [("a", FObj.reg ⟨1, 1⟩)])] : Listing) ∨
        "sub" ∈ keysAL ([("sub", [("b", FObj.reg ⟨2, 1⟩)])] : Listing)
      then 1 else 0 := by
  have h₁ : (keysAL ([(".", [("a", FObj.reg ⟨1, 1⟩)])] : Listing)).Nodup := by
    simp [keysAL]
  have h₂ : (keysAL ([("sub", [("b", FObj.reg ⟨2, 1⟩)])] : Listing)).Nodup := by
    simp [keysAL]
  refine ⟨⟨h₁, h₂⟩, ?_⟩
  exact (C4_exactly_once (fun _ => true) _ _ h₁ h₂
    (by intro p hp
        rw [List.mem_singleton] at hp
        subst hp
        simp [keysAL])
    (by intro p hp
        rw [List.mem_singleton] at hp
        subst hp
        simp [keysAL])).2 "sub"

/-- C9 counterexample: a symbolic link whose target is a directory is not
recorded as a leaf entry of its containing directory — `os.walk` puts it
into `dirs`, `get_contents` records only `files`, so a tree whose root
holds exactly one such link yields an empty listing. -/
theorem C9_counterexample :
    ¬ ∃ fs, (".", fs) ∈ get_contents false [("lnk", FSNode.symlink "t" true)] ∧
      ("lnk", FObj.symlink "t") ∈ fs := by
  have h : get_contents false [("lnk", FSNode.symlink "t" true)] = [] := by
    rw [get_contents, walkDirs_eq]
    simp [dirsOfChildren, filesOfDir, filesOfChildren]
  rintro ⟨fs, hm, _⟩
  rw [h] at hm
  cases hm

/-- C9 as amended: in every visited directory, a symlink whose target is
not a directory is recorded by name as a leaf entry of that directory's
listing entry, mapped to its link target, without being followed; a
symlink whose target is a directory is neither followed nor recorded
in the listing. -/
theorem C9_symlinks_as_leaves (sorted : Bool) (cs : List (String × FSNode))
    (p : String) (csd : List (String × FSNode))
    (hvisit : (p, csd) ∈ walkDirs sorted "." cs)
    (hpaths : (keysAL (walkDirs sorted "." cs)).Nodup)
    (hnd : (keysAL csd).Nodup)
    (n t : String) (b : Bool) (hlink : (n, FSNode.symlink t b) ∈ csd) :
    (b = false → ∃ fs, (p, fs) ∈ get_contents sorted cs ∧
      lookupAL n fs = some (FObj.symlink t)) ∧
    (b = true → ∀ fs, (p, fs) ∈ get_contents sorted cs →
      lookupAL n fs = none) := by
  constructor
  · rintro rfl
    have hlook := @filesOfDir_link sorted csd n t false hnd hlink
    rw [if_neg Bool.false_ne_true] at hlook
    refine ⟨filesOfDir sorted csd, ?_, hlook⟩
    apply mem_get_contents_iff.mpr
    refine ⟨csd, hvisit, rfl, ?_⟩
    intro hnil
    rw [hnil] at hlook
    cases hlook
  · rintro rfl fs hfs
    rcases mem_get_contents_iff.mp hfs with ⟨csd', hv', heq, _⟩
    have hsame : csd' = csd := nodup_keysAL_eq_of_mem hpaths hv' hvisit
    subst hsame
    rw [← heq]
    have hlook := @filesOfDir_link sorted _ n t true hnd hlink
    rw [if_pos rfl] at hlook
    exact hlook

theorem C9_symlinks_as_leaves_witness :
    ((".", [("good", FSNode.symlink "t" false), ("bad", FSNode.symlink "u" true),
        ("f", FSNode.reg ⟨1, 1⟩)]) ∈
      walkDirs false "." [("good", FSNode.symlink "t" false),
        ("bad", FSNode.symlink "u" true), ("f", FSNode.reg ⟨1, 1⟩)]) ∧
    (∃ fs, (".", fs) ∈ get_contents false [("good", FSNode.symlink "t" false),
        ("bad", FSNode.symlink "u" true), ("f", FSNode.reg ⟨1, 1⟩)] ∧
      lookupAL "good" fs = some (FObj.symlink "t")) ∧
    (∀ fs, (".", fs) ∈ get_contents false [("good", FSNode.symlink "t" false),
        ("bad", FSNode.symlink "u" true), ("f", FSNode.reg ⟨1, 1⟩)] →
      lookupAL "bad" fs = none) := by
  have hwalk : walkDirs false "." [("good", FSNode.symlink "t" false),
      ("bad", FSNode.symlink "u" true), ("f", FSNode.reg ⟨1, 1⟩)] =
      [(".", [("good", FSNode.symlink "t" false),
        ("bad", FSNode.symlink "u" true), ("f", FSNode.reg ⟨1, 1⟩)])] := by
    rw [walkDirs_eq]
    simp [dirsOfChildren]
  have hvisit : (".", [("good", FSNode.symlink "t" false),
      ("bad", FSNode.symlink "u" true), ("f", FSNode.reg ⟨1, 1⟩)]) ∈
      walkDirs false "." [("good", FSNode.symlink "t" false),
        ("bad", FSNode.symlink "u" true), ("f", FSNode.reg ⟨1, 1⟩)] := by
    rw [hwalk]
    exact List.mem_singleton.mpr rfl
  have hpaths : (keysAL (walkDirs false "." [("good", FSNode.symlink "t" false),
      ("bad", FSNode.symlink "u" true), ("f", FSNode.reg ⟨1, 1⟩)])).Nodup := by
    rw [hwalk]
    simp [keysAL]
  have hnd : (keysAL [("good", FSNode.symlink "t" false),
      ("bad", FSNode.symlink "u" true), ("f", FSNode.reg ⟨1, 1⟩)]).Nodup := by
    simp [keysAL]
  refine ⟨hvisit, ?_, ?_⟩
  · exact (C9_symlinks_as_leaves false _ "." _ hvisit hpaths hnd "good" "t" false
      (by simp)).1 rfl
  · exact (C9_symlinks_as_leaves false _ "." _ hvisit hpaths hnd "bad" "u" true
      (by simp)).2 rfl

/-- C10 counterexample: a directory whose only direct entry is a symlink
to a directory has a "symlink entry" but produces no listing key — the
link sits in `os.walk`'s `dirs` list, so the directory's `files` list is
empty and no dict entry is created. -/
theorem C10_counterexample :
    ("lnk", FSNode.symlink "t" true) ∈ [("lnk", FSNode.symlink "t" true)] ∧
    "d" ∉ keysAL (get_contents false
      [("d", FSNode.dir [("lnk", FSNode.symlink "t" true)])]) := by
  refine ⟨List.mem_singleton.mpr rfl, ?_⟩
  have hw : walkDirs false "." [("d", FSNode.dir [("lnk", FSNode.symlink "t" true)])] =
      [(".", [("d", FSNode.dir [("lnk", FSNode.symlink "t" true)])]),
        ("d", [("lnk", FSNode.symlink "t" true)])] := by
    rw [walkDirs_eq]
    simp only [Bool.false_eq_true, if_false, dirsOfChildren, List.filterMap_cons,
      List.filterMap_nil, List.flatMap_cons, List.flatMap_nil, List.append_nil]
    rw [walkDirs_eq]
    simp [dirsOfChildren, joinRel]
  have h : get_contents false [("d", FSNode.dir [("lnk", FSNode.symlink "t" true)])]
      = [] := by
    rw [get_contents, hw]
    simp [filesOfDir, filesOfChildren]
  rw [h]
  simp [keysAL]

/-- C10 as amended: a relative directory path is a key of the listing iff
some directory visited at that path directly contains at least one
recorded entry (a regular file or a symlink to a non-directory); and a
directory with no such direct entries that exists in only one tree
produces no report event at all — no event of the reconciliation names
its path, so no report line is printed and no counter changes for it. -/
theorem C10_empty_dirs_unlisted (sorted : Bool) (access : Nat → Bool)
    (cs₁ cs₂ : List (String × FSNode)) (p : String)
    (h₁ : ∀ csd, (p, csd) ∈ walkDirs sorted "." cs₁ → filesOfDir sorted csd = [])
    (h₂ : ∀ csd, (p, csd) ∉ walkDirs sorted "." cs₂) :
    (∀ q, q ∈ keysAL (get_contents sorted cs₁) ↔
      ∃ csd, (q, csd) ∈ walkDirs sorted "." cs₁ ∧ filesOfDir sorted csd ≠ []) ∧
    (∀ e ∈ reconcile access (get_contents sorted cs₁) (get_contents sorted cs₂),
      eventDir e ≠ p) := by
  refine ⟨fun q => mem_keys_get_contents_iff, ?_⟩
  intro e he hc
  rcases events_mention_keys he with h | h
  · rcases mem_keys_get_contents_iff.mp (hc ▸ h) with ⟨csd, hv, hne⟩
    exact hne (h₁ csd hv)
  · rcases mem_keys_get_contents_iff.mp (hc ▸ h) with ⟨csd, hv, _⟩
    exact h₂ csd hv

theorem C10_empty_dirs_unlisted_witness :
    (∀ csd, ("d", csd) ∈ walkDirs false "." [("d", FSNode.dir [])] →
      filesOfDir false csd = []) ∧
    (∀ csd, ("d", csd) ∉ walkDirs false "." [("f", FSNode.reg ⟨1, 1⟩)]) ∧
    (∀ e ∈ reconcile (fun _ => true) (get_contents false [("d", FSNode.dir [])])
      (get_contents false [("f", FSNode.reg ⟨1, 1⟩)]), eventDir e ≠ "d") := by
  have hw₁ : walkDirs false "." [("d", FSNode.dir [])] =
      [(".", [("d", FSNode.dir [])]), ("d", [])] := by
    rw [walkDirs_eq]
    simp only [Bool.false_eq_true, if_false, dirsOfChildren, List.filterMap_cons,
      List.filterMap_nil, List.flatMap_cons, List.flatMap_nil, List.append_nil]
    rw [walkDirs_eq]
    simp [dirsOfChildren, joinRel]
  have hw₂ : walkDirs false "." [("f", FSNode.reg ⟨1, 1⟩)] =
      [(".", [("f", FSNode.reg ⟨1, 1⟩)])] := by
    rw [walkDirs_eq]
    simp [dirsOfChildren]
  have h₁ : ∀ csd, ("d", csd) ∈ walkDirs false "." [("d", FSNode.dir [])] →
      filesOfDir false csd = [] := by
    intro csd hm
    rw [hw₁] at hm
    simp only [List.mem_cons, List.not_mem_nil, or_false, Prod.mk.injEq] at hm
    rcases hm with ⟨hm, _⟩ | ⟨_, hm⟩
    · exact absurd hm (by decide)
    · rw [hm]
      rfl
  have h₂ : ∀ csd, ("d", csd) ∉ walkDirs false "." [("f", FSNode.reg ⟨1, 1⟩)] := by
    intro csd hm
    rw [hw₂] at hm
    simp only [List.mem_singleton, Prod.mk.injEq] at hm
    exact absurd hm.1 (by decide)
  exact ⟨h₁, h₂,
    (C10_empty_dirs_unlisted false (fun _ => true) [("d", FSNode.dir [])]
      [("f", FSNode.reg ⟨1, 1⟩)] "d" h₁ h₂).2⟩

end Imgdiff
